import Mathlib

/-!
# Command-line segmentation engine of `view_cmd_executor.cpp`

A shallow embedding of the command buffer model of
`src/views/core/view_cmd_executor.cpp` (namespace `big`): `clean_buffer`,
the `serialized_buffer` class with its parser, its cursor queries and its
rename operations, followed by theorems about them.

Conventions of the embedding

* `std::string` is `List Char`; `std::vector<T>` is `List T`.
* `size_t` is a `Nat` reduced modulo `2 ^ 64` by every operation, `int` is
  an `Int` in `[-2 ^ 31, 2 ^ 31)`; the conversions between the two are
  `to_size_t` and `to_int`.
* a `command*` is an `Option command`, `nullptr` being `none`; the registry
  lookup `command::get(rage::joaat(name))` is a parameter `reg`.
* a loop becomes a recursive function over the elements still to visit,
  with the loop variables as arguments.
-/

set_option linter.dupNamespace false

namespace big

/-! ## Machine integers -/

/-- The value `std::string::npos`, the largest `size_t`. -/
def npos : Nat := 2 ^ 64 - 1

/-- Conversion of an `int` to `size_t`: reduction modulo `2 ^ 64`. -/
def to_size_t (x : Int) : Nat := (x % 2 ^ 64).toNat

/-- Conversion of a `size_t` to `int`: the low 32 bits, read in two's
complement. -/
def to_int (n : Nat) : Int := (((n + 2 ^ 31) % 2 ^ 32 : Nat) : Int) - 2 ^ 31

/-- Addition of two `size_t`. -/
def size_add (a b : Nat) : Nat := (a + b) % 2 ^ 64

/-- Subtraction of two `size_t`, wrapping around below zero. -/
def size_sub (a b : Nat) : Nat := (a % 2 ^ 64 + 2 ^ 64 - b % 2 ^ 64) % 2 ^ 64

/-- The compound assignment `x += d` of a `size_t` `d` to an `int` `x`: `x`
is converted to `size_t`, the sum is taken there and converted back. -/
def add_assign (x : Int) (d : Nat) : Int := to_int (size_add (to_size_t x) d)

/-! ## `clean_buffer` -/

/-- The inner `while` of `clean_buffer`: advance past the spaces that follow
a semicolon. -/
def skip_spaces : List Char → List Char
  | [] => []
  | c :: rest => if c = ' ' then skip_spaces rest else c :: rest

/-- The `for` loop of `clean_buffer` over the characters still to read,
returning what it appends to `new_buffer`. The first argument bounds the
number of iterations; `clean_buffer` passes the size of the buffer. -/
def clean_loop : Nat → Bool → List Char → List Char
  | 0, _, _ => []
  | _ + 1, _, [] => []
  | n + 1, last_char_was_space, c :: rest =>
    if c = ' ' then
      if !last_char_was_space then ' ' :: clean_loop n true rest
      else clean_loop n true rest
    else if c = ';' then
      ';' :: clean_loop n false (skip_spaces rest)
    else
      c :: clean_loop n false rest

/-- The call `s.find_first_not_of(c)`, with `npos` as `none`. -/
def find_first_not_of (c : Char) : List Char → Option Nat
  | [] => none
  | x :: rest => if x ≠ c then some 0 else (find_first_not_of c rest).map (· + 1)

/-- The call `s.find_last_not_of(c)`, with `npos` as `none`. -/
def find_last_not_of (c : Char) : List Char → Option Nat
  | [] => none
  | x :: rest =>
    match find_last_not_of c rest with
    | some k => some (k + 1)
    | none => if x ≠ c then some 0 else none

/-- The call `s.substr(pos, count)` for `pos ≤ s.size()`. -/
def substr (s : List Char) (pos count : Nat) : List Char := (s.drop pos).take count

/-- The function `clean_buffer`, returning the new content of its
reference argument. -/
def clean_buffer (buffer : List Char) : List Char :=
  let new_buffer := clean_loop buffer.length false buffer
  match find_first_not_of ' ' new_buffer, find_last_not_of ' ' new_buffer with
  | some start, some end_pos => substr new_buffer start (end_pos - start + 1)
  | _, _ => []

/-! ## Strings and the registry -/

/-- Modelled from the spec: `string::operations::split` of
`util/string_operations.hpp`, which is not among the sources. The text is cut
at every occurrence of the delimiter into an ordered sequence of segments;
empty segments are kept, a trailing delimiter included, so an empty
sub-command is a segment of its own and an empty text has the one empty
word. -/
def split (text : List Char) (delim : Char) : List (List Char) :=
  match text with
  | [] => [[]]
  | c :: rest =>
    if c = delim then [] :: split rest delim
    else
      match split rest delim with
      | [] => [[c]]
      | w :: ws => (c :: w) :: ws

/-- The search of `std::string::find` over the characters from position `p`
on: the first position at which `word` starts, `npos` if there is none. -/
def find_from (word : List Char) : List Char → Nat → Nat
  | [], p => if word = [] then p else npos
  | c :: rest, p => if word.isPrefixOf (c :: rest) then p else find_from word rest (p + 1)

/-- The call `buffer.find(word, pos)`. -/
def string_find (buffer word : List Char) (pos : Nat) : Nat :=
  if pos ≤ buffer.length then find_from word (buffer.drop pos) pos else npos

/-- A registered command, reduced to what `get_name()` reports. -/
structure command where
  name : List Char
deriving DecidableEq, Repr

/-- The registry lookup `command::get(rage::joaat(name))`, `nullptr` being
`none`. -/
abbrev registry := List Char → Option command

/-! ## The data model -/

/-- The struct `argument`. -/
structure argument where
  name : List Char
  index : Int
  start_index : Int
  end_index : Int
  is_argument : Bool
deriving DecidableEq, Repr

/-- The struct `command_scope`. Its members `name_start_index` and
`name_end_index` are never written nor read and are left out. -/
structure command_scope where
  cmd : Option command
  raw : List Char
  name : List Char
  index : Int
  start_index : Int
  end_index : Int
  argument_count : Int
  arguments : List argument
deriving DecidableEq, Repr

/-- The method `command_scope::get_argument`. -/
def command_scope.get_argument (scope : command_scope) (cursor_pos : Int) : Option argument :=
  scope.arguments.find? (fun arg => decide (cursor_pos ≥ arg.start_index) && decide (cursor_pos ≤ arg.end_index))

/-- The data members of the class `serialized_buffer`. -/
structure serialized_buffer where
  buffer : List Char
  total_length : Int
  delimeter_index_list : List Int
  command_count : Int
  command_scopes : List command_scope
deriving DecidableEq, Repr

namespace serialized_buffer

/-! ## Parsing -/

/-- The inner loop of `parse_buffer` over the words `words[j], ...` still to
place; `size` is `words.size()`. It returns the arguments it pushes and the
final `buffer_pos`. -/
def parse_words (buffer : List Char) (size : Nat) : List (List Char) → Nat → Nat → List argument × Nat
  | [], _, buffer_pos => ([], buffer_pos)
  | w :: ws, j, buffer_pos =>
    let word_start := string_find buffer w buffer_pos
    let arg : argument :=
      { name := w
        index := j
        is_argument := decide (j > 0)
        start_index := to_int word_start
        end_index := to_int (size_add word_start w.length) }
    let buffer_pos1 := size_add word_start w.length
    let buffer_pos2 := if j < size - 1 then size_add buffer_pos1 1 else buffer_pos1
    let r := parse_words buffer size ws (j + 1) buffer_pos2
    (arg :: r.1, r.2)

/-- The outer loop of `parse_buffer` over the sub-commands
`separate_commands[i], ...` still to parse. It returns the scopes it pushes
and the final `total_length`. `words.front()` of an empty vector is
undefined in the source; `split` never returns one. -/
def parse_scopes (reg : registry) (buffer : List Char) (command_count : Int) :
    List (List Char) → Nat → Int → List command_scope × Int
  | [], _, total_length => ([], total_length)
  | sub :: rest, i, total_length =>
    if (i : Int) < command_count then
      let words := split sub ' '
      let r := parse_words buffer words.length words 0 (to_size_t total_length)
      let scope : command_scope :=
        { cmd := reg (words.headD [])
          name := words.headD []
          index := i
          start_index := total_length
          raw := sub
          argument_count := to_int (size_sub words.length 1)
          arguments := r.1
          end_index := to_int r.2 }
      let rr := parse_scopes reg buffer command_count rest (i + 1) (to_int (size_add r.2 1))
      (scope :: rr.1, rr.2)
    else ([], total_length)

/-- The method `parse_buffer`. -/
def parse_buffer (reg : registry) (self : serialized_buffer) : serialized_buffer :=
  let separate_commands := split self.buffer ';'
  let command_count := to_int separate_commands.length
  let r := parse_scopes reg self.buffer command_count separate_commands 0 0
  { self with
    command_count := command_count
    total_length := r.2
    command_scopes := self.command_scopes ++ r.1 }

/-- The object after the member initialisers of the constructor:
`buffer(buffer), total_length(0), command_count(0)`. -/
def initial (buffer : List Char) : serialized_buffer :=
  { buffer := buffer
    total_length := 0
    delimeter_index_list := []
    command_count := 0
    command_scopes := [] }

/-- The constructor `serialized_buffer(std::string buffer)`. In its body the
name `buffer` is the by-value parameter, which hides the member of the same
name: `clean_buffer(buffer)` rewrites the parameter, and `parse_buffer()`
reads the member, which still holds the text as passed in. -/
def serialized_buffer (reg : registry) (buffer : List Char) : big.serialized_buffer :=
  let self := initial buffer
  if buffer.isEmpty then self
  else
    let _buffer := clean_buffer buffer
    parse_buffer reg self

/-! ## Serialising -/

/-- The loop of `deserialize` over the arguments of one scope; `back_name`
is `command.arguments.back().name`. -/
def deserialize_arguments (back_name : List Char) : List argument → List Char
  | [] => []
  | a :: rest =>
    a.name ++ (if a.name ≠ back_name then [' '] else []) ++ deserialize_arguments back_name rest

/-- The loop of `deserialize` over the scopes; `back_raw` is
`command_scopes.back().raw`. -/
def deserialize_scopes (back_raw : List Char) : List command_scope → List Char
  | [] => []
  | c :: rest =>
    let head := (match c.cmd with
      | none => c.raw
      | some cmd => cmd.name) ++ [' ']
    if c.argument_count = 0 then head ++ deserialize_scopes back_raw rest
    else
      let back_name := (c.arguments.getLast?.map argument.name).getD []
      head ++ deserialize_arguments back_name c.arguments
        ++ (if c.raw ≠ back_raw then [';'] else [])
        ++ deserialize_scopes back_raw rest

/-- The method `deserialize`. -/
def deserialize (self : big.serialized_buffer) : List Char :=
  if self.command_count = 0 then []
  else
    deserialize_scopes ((self.command_scopes.getLast?.map command_scope.raw).getD [])
      self.command_scopes

/-! ## Cursor queries -/

/-- The predicate of the `find_if` in `get_command_scope`. -/
def in_scope (cursor_pos : Int) (scope : command_scope) : Bool :=
  decide (cursor_pos ≥ scope.start_index) && decide (cursor_pos ≤ scope.end_index)

/-- The method `get_command_scope`. -/
def get_command_scope (self : big.serialized_buffer) (cursor_pos : Int) : Option command_scope :=
  self.command_scopes.find? (in_scope cursor_pos)

/-- The loop of `get_argument_index_from_char_index` from `i` on, over the
elements `arguments[i], ...`; `count` is `scope->argument_count` as a
`size_t`. Reading past the end of the vector is undefined in the source and
gives `-1` here. -/
def argument_index_loop (name : List Char) (count : Nat) : Nat → List argument → Int
  | _, [] => -1
  | i, a :: rest =>
    if i < count then
      if name = a.name then to_int (size_add i 1)
      else argument_index_loop name count (i + 1) rest
    else -1

/-- The method `get_argument_index_from_char_index`. -/
def get_argument_index_from_char_index (self : big.serialized_buffer) (cursor_pos : Int) : Int :=
  match self.get_command_scope cursor_pos with
  | none => -1
  | some scope =>
    match scope.get_argument cursor_pos with
    | none => -1
    | some argument =>
      argument_index_loop argument.name (to_size_t scope.argument_count) 0 scope.arguments

/-- The method `get_command_of_index`. -/
def get_command_of_index (self : big.serialized_buffer) (cursor_pos : Int) : Option command :=
  match self.get_command_scope cursor_pos with
  | none => none
  | some scope => scope.cmd

/-- The method `is_current_index_argument`. The source reads
`argument->is_argument` without testing the pointer that `get_argument`
returned; the read through a null pointer is `none` here. -/
def is_current_index_argument (self : big.serialized_buffer) (cursor_pos : Int) : Option Bool :=
  match self.get_command_scope cursor_pos with
  | none => some false
  | some scope =>
    match scope.get_argument cursor_pos with
    | none => none
    | some argument => some argument.is_argument

/-! ## Renaming -/

/-- An assignment through the pointer that a `find_if` returned: the first
element satisfying `p` is replaced by its image under `f`. -/
def update_found {α : Type} (p : α → Bool) (f : α → α) : List α → List α
  | [] => []
  | x :: rest => if p x then f x :: rest else x :: update_found p f rest

/-- The body of the loop of `update_command_of_scope` for one scope;
`scope_index` is `scope->index`. -/
def shift_scope (len_diff : Nat) (scope_index : Int) (current_scope : command_scope) : command_scope :=
  { current_scope with
    start_index :=
      if current_scope.index ≠ scope_index then add_assign current_scope.start_index len_diff
      else current_scope.start_index
    end_index := add_assign current_scope.end_index len_diff
    arguments := current_scope.arguments.map (fun argument =>
      { argument with
        start_index := add_assign argument.start_index len_diff
        end_index := add_assign argument.end_index len_diff }) }

/-- A loop `for (int i = scope->index; i < command_count; i++)` that applies
`body` to `command_scopes[i]`, as a pass over the whole vector; `i` is the
position of the head of the list. -/
def scopes_loop (body : command_scope → command_scope) (scope_index command_count : Int) :
    Nat → List command_scope → List command_scope
  | _, [] => []
  | i, current_scope :: rest =>
    (if scope_index ≤ (i : Int) ∧ (i : Int) < command_count then body current_scope
      else current_scope) :: scopes_loop body scope_index command_count (i + 1) rest

/-- The method `update_command_of_scope`. -/
def update_command_of_scope (reg : registry) (self : big.serialized_buffer) (cursor_pos : Int)
    (cmd : List Char) : big.serialized_buffer :=
  match self.get_command_scope cursor_pos with
  | none => self
  | some scope =>
    let len_diff := size_sub cmd.length scope.name.length
    let scopes1 := update_found (in_scope cursor_pos)
      (fun s => { s with cmd := reg cmd }) self.command_scopes
    let scopes2 := scopes_loop (shift_scope len_diff scope.index) scope.index
      self.command_count 0 scopes1
    let self1 := { self with command_scopes := scopes2 }
    { self1 with buffer := self1.deserialize }

/-- The predicate of the `find_if` in `command_scope::get_argument`. -/
def in_argument (cursor_pos : Int) (arg : argument) : Bool :=
  decide (cursor_pos ≥ arg.start_index) && decide (cursor_pos ≤ arg.end_index)

/-- The body of the loop of `update_argument_of_scope` for one scope;
`scope_index` is `scope->index` and `argument_index` is `argument->index`. -/
def shift_argument_end (len_diff : Nat) (scope_index argument_index : Int)
    (current_scope : command_scope) : command_scope :=
  { current_scope with
    end_index :=
      if current_scope.index = scope_index then add_assign current_scope.end_index len_diff
      else current_scope.end_index
    arguments := current_scope.arguments.map (fun current_argument =>
      if current_argument.index = argument_index then
        { current_argument with end_index := add_assign current_argument.end_index len_diff }
      else current_argument) }

/-- The assignment `argument->name = new_argument` of
`update_argument_of_scope`, seen from the scope that `scope` points to:
`argument` points to the first of its arguments whose range holds `index`. -/
def assign_argument_name (index : Int) (new_argument : List Char) (s : command_scope) :
    command_scope :=
  { s with
    arguments :=
      update_found (in_argument index) (fun a => { a with name := new_argument }) s.arguments }

/-- The method `update_argument_of_scope`; its second parameter `arg` is
not used by the source. -/
def update_argument_of_scope (self : big.serialized_buffer) (index : Int) (_arg : Int)
    (new_argument : List Char) : big.serialized_buffer :=
  match self.get_command_scope index with
  | none => self
  | some scope =>
    match scope.get_argument index with
    | none => self
    | some argument =>
      let len_diff := size_sub new_argument.length argument.name.length
      let scopes1 := update_found (in_scope index) (assign_argument_name index new_argument)
        self.command_scopes
      let scopes2 := scopes_loop (shift_argument_end len_diff scope.index argument.index)
        scope.index self.command_count 0 scopes1
      let self1 := { self with command_scopes := scopes2 }
      { self1 with buffer := self1.deserialize }

end serialized_buffer

/-! ## Reference layout of a parsed line -/

/-- Joining segments with a separator character between neighbours. -/
def join_with (sep : Char) : List (List Char) → List Char
  | [] => []
  | [w] => w
  | w :: w' :: ws => w ++ sep :: join_with sep (w' :: ws)

/-- The offset at which segment `i` of a sequence of segments starts: the
sizes of the segments before it and one separator after each of them. -/
def segment_offset (segments : List (List Char)) (i : Nat) : Nat :=
  ((segments.take i).map (fun w => w.length + 1)).sum

/-- The position in `buffer` of the occurrence of word `j` of sub-command
`i` itself, counted from the sizes of the sub-commands and words before
it. -/
def own_offset (buffer : List Char) (i j : Nat) : Nat :=
  segment_offset (split buffer ';') i
    + segment_offset (split ((split buffer ';').getD i []) ' ') j

/-- The arguments of a scope whose words `words[j], ...` lie one after the
other from position `pos` on, one space apart. -/
def words_layout : List (List Char) → Nat → Nat → List argument
  | [], _, _ => []
  | w :: ws, j, pos =>
    { name := w
      index := j
      is_argument := decide (j > 0)
      start_index := pos
      end_index := pos + w.length } :: words_layout ws (j + 1) (pos + w.length + 1)

/-- The scopes of the sub-commands `subs[i], ...` lying one after the other
from position `base` on, one delimiter apart. -/
def scopes_layout (reg : registry) : List (List Char) → Nat → Nat → List command_scope
  | [], _, _ => []
  | sub :: rest, i, base =>
    { cmd := reg ((split sub ' ').headD [])
      name := (split sub ' ').headD []
      index := i
      start_index := base
      raw := sub
      argument_count := ((split sub ' ').length : Int) - 1
      arguments := words_layout (split sub ' ') 0 base
      end_index := base + sub.length } :: scopes_layout reg rest (i + 1) (base + sub.length + 1)

open serialized_buffer

/-- A registry that knows the commands `go`, `tp`, `teleport`, `give` and
`foo`, each reporting the name it is looked up by. -/
def sample_registry : registry := fun name =>
  if name ∈ ["go".toList, "tp".toList, "teleport".toList, "give".toList, "foo".toList]
  then some { name := name } else none

/-- A model with one scope `[0,5]` that holds no argument, as a rename can
meet it when it is handed a model not built by the parser. -/
def bare_scope_model : big.serialized_buffer :=
  { buffer := "hello".toList
    total_length := 6
    delimeter_index_list := []
    command_count := 1
    command_scopes :=
      [{ cmd := none
         raw := "hello".toList
         name := "hello".toList
         index := 0
         start_index := 0
         end_index := 5
         argument_count := 0
         arguments := [] }] }

/-! ## The token range invariant -/

/-- The tokens of one scope are in order: each one starts no later than it
ends, and each one ends no later than every token after it starts. -/
def tokens_ordered (args : List argument) : Prop :=
  (∀ a ∈ args, a.start_index ≤ a.end_index) ∧
  ∀ (j k : Nat) (a b : argument), j < k → args[j]? = some a → args[k]? = some b →
    a.end_index ≤ b.start_index

/-- The value is one that an `int` holds. -/
@[reducible] def int_fits (x : Int) : Prop := -2 ^ 31 ≤ x ∧ x < 2 ^ 31

/-- A command rename at `pos` to `n` keeps every offset of the model an
`int`: the sizes of the new and of the old name and every token offset,
before and after the signed size difference is added, are values that an
`int` holds. -/
def rename_fits (m : big.serialized_buffer) (pos : Int) (n : List Char) : Prop :=
  ∀ sc, m.get_command_scope pos = some sc →
    n.length < 2 ^ 31 ∧ sc.name.length < 2 ^ 31 ∧
    ∀ s ∈ m.command_scopes, ∀ a ∈ s.arguments,
      int_fits a.start_index ∧ int_fits a.end_index ∧
      int_fits (a.start_index + ((n.length : Int) - (sc.name.length : Int))) ∧
      int_fits (a.end_index + ((n.length : Int) - (sc.name.length : Int)))

/-- The models obtained from the parsed model of `raw` by a sequence of
`update_command_of_scope` calls, each keeping every offset an `int`. -/
inductive command_renamed (reg : registry) (raw : List Char) : big.serialized_buffer → Prop
  | parsed : command_renamed reg raw (serialized_buffer.serialized_buffer reg raw)
  | renamed (m : big.serialized_buffer) (pos : Int) (n : List Char) :
      command_renamed reg raw m → rename_fits m pos n →
      command_renamed reg raw (update_command_of_scope reg m pos n)

/-! ## History and list navigation -/

/-- The function `does_string_exist_in_list`. -/
def does_string_exist_in_list (command : List Char) (list : List (List Char)) : Bool :=
  list.contains command

/-- The function `deque_to_vector`: the elements of the deque, front
first. -/
def deque_to_vector (deque : List (List Char)) : List (List Char) := deque

/-- The function `add_to_last_used_commands`, on the deque
`g.cmd.command_history` (front first), returning its new content. -/
def add_to_last_used_commands (command_history : List (List Char)) (command : List Char) :
    List (List Char) :=
  if does_string_exist_in_list command (deque_to_vector command_history) then command_history
  else
    let popped := if command_history.length ≥ 10 then command_history.dropLast else command_history
    command :: popped

/-- The position of the iterator that `std::find_if` returns, `end()`
being `none`. -/
def find_if_position {α : Type} (p : α → Bool) : List α → Option Nat
  | [] => none
  | x :: rest => if p x then some 0 else (find_if_position p rest).map (· + 1)

/-- The function `get_previous_from_list`, returning the new value of
`current`. With `found` at position 0 the element is `list.front()` and the
function returns before `found - 1` is formed. -/
def get_previous_from_list (list : List (List Char)) (current : List Char) : List Char :=
  match find_if_position (fun cmd => decide (cmd = current)) list with
  | none => if list.length > 0 then list.getLastD current else current
  | some found =>
    if list.getD found [] = list.headD [] then list.getLastD current
    else if found - 1 ≠ list.length then list.getD (found - 1) current
    else current

/-- The function `get_next_from_list`, returning the new value of
`current`. -/
def get_next_from_list (list : List (List Char)) (current : List Char) : List Char :=
  match find_if_position (fun cmd => decide (cmd = current)) list with
  | none => if list.length > 0 then list.headD current else current
  | some found =>
    if list.getD found [] = list.getLastD [] then list.headD current
    else if found + 1 ≠ list.length then list.getD (found + 1) current
    else current

/-! ## The cleaning test of the input callback -/

/-- The function `buffer_needs_cleaning`, as a pass over the characters
from `input[i]` on; `rest.head?` is `input[i + 1]` when `i + 1` is below the
size. -/
def buffer_needs_cleaning : List Char → Bool
  | [] => false
  | c :: rest =>
    if c = ' ' then
      if rest.head? = some ' ' then true else buffer_needs_cleaning rest
    else if c = ';' then
      if rest.head? = some ';' ∨ rest.head? = some ' ' then true else buffer_needs_cleaning rest
    else buffer_needs_cleaning rest

/-! ## Properties of `clean_buffer` -/

/-- The relation between neighbours in a cleaned line: a space follows
neither a space nor a semicolon. -/
def clean_adjacent (a b : Char) : Prop := b = ' ' → a ≠ ' ' ∧ a ≠ ';'

theorem skip_spaces_length_le (l : List Char) : (skip_spaces l).length ≤ l.length := by
  induction l with
  | nil => simp [skip_spaces]
  | cons c rest ih =>
    simp only [skip_spaces]
    split
    · simp only [List.length_cons]; omega
    · exact le_refl _

theorem skip_spaces_head (l : List Char) : (skip_spaces l).head? ≠ some ' ' := by
  induction l with
  | nil => simp [skip_spaces]
  | cons c rest ih =>
    simp only [skip_spaces]
    split
    · exact ih
    · rename_i h
      simpa using h

theorem skip_spaces_eq_self (l : List Char) (h : l.head? ≠ some ' ') : skip_spaces l = l := by
  cases l with
  | nil => rfl
  | cons c rest =>
    have hc : c ≠ ' ' := by simpa using h
    simp [skip_spaces, hc]

/-- The iteration bound of `clean_loop` is never what stops it: with any
two bounds of at least the number of characters left the loop gives the
same text, so `clean_buffer`, which passes the size of the buffer, runs the
loop to the end of the buffer. -/
theorem clean_loop_fuel (n : Nat) : ∀ (m : Nat) (last : Bool) (l : List Char),
    l.length ≤ n → l.length ≤ m → clean_loop n last l = clean_loop m last l := by
  induction n with
  | zero =>
    intro m last l hn _
    have hl : l = [] := List.length_eq_zero.mp (Nat.le_zero.mp hn)
    subst hl
    cases m <;> simp [clean_loop]
  | succ n ih =>
    intro m last l hn hm
    cases l with
    | nil => cases m <;> simp [clean_loop]
    | cons c rest =>
      cases m with
      | zero => simp at hm
      | succ m =>
        have h1 : rest.length ≤ n := by simp only [List.length_cons] at hn; omega
        have h2 : rest.length ≤ m := by simp only [List.length_cons] at hm; omega
        have h3 := skip_spaces_length_le rest
        simp only [clean_loop]
        rw [ih m true rest h1 h2, ih m false rest h1 h2,
          ih m false (skip_spaces rest) (by omega) (by omega)]

theorem chain_cons_of_head {R : Char → Char → Prop} (a : Char) (l : List Char)
    (hl : List.Chain' R l) (hh : ∀ b, l.head? = some b → R a b) : List.Chain' R (a :: l) := by
  cases l with
  | nil => exact List.chain'_singleton a
  | cons b rest => exact List.Chain'.cons (hh b rfl) hl

theorem clean_loop_chain (n : Nat) : ∀ (last : Bool) (l : List Char), l.length ≤ n →
    List.Chain' clean_adjacent (clean_loop n last l) ∧
    ((last = true ∨ l.head? ≠ some ' ') → (clean_loop n last l).head? ≠ some ' ') := by
  induction n with
  | zero =>
    intro last l hl
    simp [clean_loop]
  | succ n ih =>
    intro last l hl
    cases l with
    | nil => simp [clean_loop]
    | cons c rest =>
      have hrest : rest.length ≤ n := by simp only [List.length_cons] at hl; omega
      simp only [clean_loop]
      by_cases hc : c = ' '
      · subst hc
        cases last with
        | false =>
          have h := ih true rest hrest
          refine ⟨?_, ?_⟩
          · simp only [Bool.not_false, if_true]
            refine chain_cons_of_head _ _ h.1 ?_
            intro b hb hbs
            exact absurd (hbs ▸ hb) (h.2 (Or.inl rfl))
          · intro h'
            simp at h'
        | true =>
          have h := ih true rest hrest
          simp only [Bool.not_true, if_true]
          exact ⟨h.1, fun _ => h.2 (Or.inl rfl)⟩
      · by_cases hs : c = ';'
        · subst hs
          have hlen : (skip_spaces rest).length ≤ n := le_trans (skip_spaces_length_le rest) hrest
          have h := ih false (skip_spaces rest) hlen
          simp only [hc, if_false, if_true]
          refine ⟨?_, by simp⟩
          refine chain_cons_of_head _ _ h.1 ?_
          intro b hb hbs
          exact absurd (hbs ▸ hb) (h.2 (Or.inr (skip_spaces_head rest)))
        · have h := ih false rest hrest
          simp only [hc, hs, if_false]
          refine ⟨?_, by intro _; simpa using hc⟩
          refine chain_cons_of_head _ _ h.1 ?_
          intro b _ _
          exact ⟨hc, hs⟩

theorem chain_adjacent {R : Char → Char → Prop} : ∀ (l : List Char), List.Chain' R l →
    ∀ (i : Nat) (a b : Char), l[i]? = some a → l[i + 1]? = some b → R a b := by
  intro l
  induction l with
  | nil => intro _ i a b h; simp at h
  | cons x rest ih =>
    intro hl i a b ha hb
    cases rest with
    | nil => simp at hb
    | cons y rest2 =>
      rw [List.chain'_cons] at hl
      cases i with
      | zero =>
        simp at ha hb
        subst ha; subst hb
        exact hl.1
      | succ k =>
        simp only [List.getElem?_cons_succ] at ha hb
        exact ih hl.2 k a b ha (by simpa using hb)

theorem find_first_not_of_none (c : Char) : ∀ (s : List Char),
    find_first_not_of c s = none → ∀ x ∈ s, x = c := by
  intro s
  induction s with
  | nil => intro _ x hx; simp at hx
  | cons y rest ih =>
    intro h x hx
    simp only [find_first_not_of] at h
    split at h
    · simp at h
    · rename_i hy
      have hy' : y = c := by simpa using hy
      have hr : find_first_not_of c rest = none := by simpa using h
      rcases List.mem_cons.mp hx with rfl | hx'
      · exact hy'
      · exact ih hr x hx'

theorem find_first_not_of_some (c : Char) : ∀ (s : List Char) (k : Nat),
    find_first_not_of c s = some k → ∃ x rest, s.drop k = x :: rest ∧ x ≠ c := by
  intro s
  induction s with
  | nil => intro k h; simp [find_first_not_of] at h
  | cons y rest ih =>
    intro k h
    simp only [find_first_not_of] at h
    split at h
    · rename_i hy
      have hk : k = 0 := by simpa using h.symm
      subst hk
      exact ⟨y, rest, rfl, hy⟩
    · simp only [Option.map_eq_some'] at h
      obtain ⟨j, hj, rfl⟩ := h
      simpa using ih j hj

theorem find_last_not_of_none (c : Char) : ∀ (s : List Char),
    find_last_not_of c s = none → ∀ x ∈ s, x = c := by
  intro s
  induction s with
  | nil => intro _ x hx; simp at hx
  | cons y rest ih =>
    intro h x hx
    simp only [find_last_not_of] at h
    split at h
    · simp at h
    · rename_i hr
      split at h
      · simp at h
      · rename_i hy
        have hy' : y = c := by simpa using hy
        rcases List.mem_cons.mp hx with rfl | hx'
        · exact hy'
        · exact ih hr x hx'

theorem find_last_not_of_some (c : Char) : ∀ (s : List Char) (k : Nat),
    find_last_not_of c s = some k → ∃ pre x, s.take (k + 1) = pre ++ [x] ∧ x ≠ c ∧ pre.length = k := by
  intro s
  induction s with
  | nil => intro k h; simp [find_last_not_of] at h
  | cons y rest ih =>
    intro k h
    simp only [find_last_not_of] at h
    split at h
    · rename_i j hj
      have hk : k = j + 1 := by simpa using h.symm
      subst hk
      obtain ⟨pre, x, hpre, hx, hlen⟩ := ih j hj
      refine ⟨y :: pre, x, ?_, hx, by simp [hlen]⟩
      simp [List.take_succ_cons, hpre]
    · split at h
      · rename_i hy
        have hk : k = 0 := by simpa using h.symm
        subst hk
        exact ⟨[], y, by simp, hy, rfl⟩
      · simp at h

theorem find_first_le_find_last (c : Char) : ∀ (s : List Char) (a b : Nat),
    find_first_not_of c s = some a → find_last_not_of c s = some b → a ≤ b := by
  intro s
  induction s with
  | nil => intro a b h; simp [find_first_not_of] at h
  | cons y rest ih =>
    intro a b ha hb
    simp only [find_first_not_of] at ha
    split at ha
    · have : a = 0 := by simpa using ha.symm
      omega
    · simp only [Option.map_eq_some'] at ha
      obtain ⟨a', ha', rfl⟩ := ha
      simp only [find_last_not_of] at hb
      split at hb
      · rename_i k hk
        have : b = k + 1 := by simpa using hb.symm
        have := ih a' k ha' hk
        omega
      · rename_i hr
        obtain ⟨x, tl, hx, hxc⟩ := find_first_not_of_some c rest a' ha'
        have hmem : x ∈ rest := List.mem_of_mem_drop (by rw [hx]; exact List.mem_cons_self x tl)
        exact absurd (find_last_not_of_none c rest hr x hmem) hxc

theorem trim_props (s : List Char) (start e : Nat)
    (h1 : find_first_not_of ' ' s = some start) (h2 : find_last_not_of ' ' s = some e) :
    substr s start (e - start + 1) <:+: s ∧
    (substr s start (e - start + 1)).head? ≠ some ' ' ∧
    (substr s start (e - start + 1)).getLast? ≠ some ' ' := by
  have hle := find_first_le_find_last ' ' s start e h1 h2
  obtain ⟨x, tl, hx, hxc⟩ := find_first_not_of_some ' ' s start h1
  obtain ⟨pre, y, hy, hyc, hlen⟩ := find_last_not_of_some ' ' s e h2
  refine ⟨?_, ?_, ?_⟩
  · exact (List.take_prefix _ _).isInfix.trans (List.drop_suffix _ _).isInfix
  · simp only [substr, hx, List.take_succ_cons, List.head?_cons]
    simpa using hxc
  · have hr : substr s start (e - start + 1) = pre.drop start ++ [y] := by
      have h3 : start + (e - start + 1) = e + 1 := by omega
      rw [substr, List.take_drop, h3, hy, List.drop_append_of_le_length (by omega)]
    rw [hr, List.getLast?_concat]
    simpa using hyc

theorem clean_buffer_chain (s : List Char) : List.Chain' clean_adjacent (clean_buffer s) := by
  unfold clean_buffer
  simp only
  split
  · rename_i start e h1 h2
    exact List.Chain'.infix (clean_loop_chain s.length false s (le_refl _)).1
      (trim_props _ start e h1 h2).1
  · exact List.chain'_nil

theorem clean_buffer_head (s : List Char) : (clean_buffer s).head? ≠ some ' ' := by
  unfold clean_buffer
  simp only
  split
  · rename_i start e h1 h2
    exact (trim_props _ start e h1 h2).2.1
  · simp

theorem clean_buffer_last (s : List Char) : (clean_buffer s).getLast? ≠ some ' ' := by
  unfold clean_buffer
  simp only
  split
  · rename_i start e h1 h2
    exact (trim_props _ start e h1 h2).2.2
  · simp

theorem clean_loop_mem (n : Nat) : ∀ (last : Bool) (l : List Char),
    ∀ x ∈ clean_loop n last l, x ∈ l := by
  induction n with
  | zero => intro last l x hx; simp [clean_loop] at hx
  | succ n ih =>
    intro last l x hx
    cases l with
    | nil => simp [clean_loop] at hx
    | cons c rest =>
      have hskip : ∀ y ∈ skip_spaces rest, y ∈ rest := by
        intro y hy
        clear hx ih
        induction rest with
        | nil => simp [skip_spaces] at hy
        | cons d r ihr =>
          simp only [skip_spaces] at hy
          split at hy
          · exact List.mem_cons_of_mem _ (ihr hy)
          · exact hy
      simp only [clean_loop] at hx
      split at hx
      · split at hx
        · rcases List.mem_cons.mp hx with h | h
          · rename_i hc _
            simp [h, hc]
          · exact List.mem_cons_of_mem _ (ih _ _ x h)
        · exact List.mem_cons_of_mem _ (ih _ _ x hx)
      · split at hx
        · rcases List.mem_cons.mp hx with h | h
          · rename_i hc
            simp [h, hc]
          · exact List.mem_cons_of_mem _ (hskip _ (ih _ _ x h))
        · rcases List.mem_cons.mp hx with h | h
          · simp [h]
          · exact List.mem_cons_of_mem _ (ih _ _ x h)

theorem clean_buffer_blank (s : List Char) (h : ∀ c ∈ s, c = ' ') : clean_buffer s = [] := by
  unfold clean_buffer
  simp only
  split
  · rename_i start e h1 h2
    obtain ⟨x, tl, hx, hxc⟩ := find_first_not_of_some ' ' _ start h1
    have hmem : x ∈ clean_loop s.length false s :=
      List.mem_of_mem_drop (by rw [hx]; exact List.mem_cons_self x tl)
    exact absurd (h x (clean_loop_mem _ _ _ x hmem)) hxc
  · rfl

theorem clean_loop_fixed : ∀ (l : List Char) (n : Nat) (last : Bool), l.length ≤ n →
    List.Chain' clean_adjacent l → (last = true → l.head? ≠ some ' ') →
    clean_loop n last l = l := by
  intro l
  induction l with
  | nil => intro n last _ _ _; cases n <;> simp [clean_loop]
  | cons c rest ih =>
    intro n last hn hch hlast
    cases n with
    | zero => simp at hn
    | succ n =>
      have hrest : rest.length ≤ n := by simp only [List.length_cons] at hn; omega
      have hch' : List.Chain' clean_adjacent rest := hch.tail
      have hadj : ∀ b, rest.head? = some b → clean_adjacent c b := by
        intro b hb
        cases rest with
        | nil => simp at hb
        | cons d r =>
          simp only [List.head?_cons, Option.some.injEq] at hb
          subst hb
          exact (List.chain'_cons.mp hch).1
      have hhead : (c = ' ' ∨ c = ';') → rest.head? ≠ some ' ' := by
        intro hc hb
        have := hadj ' ' hb rfl
        rcases hc with hc | hc
        · exact this.1 hc
        · exact this.2 hc
      simp only [clean_loop]
      by_cases hc : c = ' '
      · have hl : last = false := by
          cases last with
          | false => rfl
          | true => exact absurd (by simp [hc]) (hlast rfl)
        subst hl
        simp only [hc, Bool.not_false, if_true, List.cons.injEq, true_and]
        exact ih n true hrest hch' (fun _ => hhead (Or.inl hc))
      · by_cases hs : c = ';'
        · subst hs
          rw [if_neg (by decide), if_pos rfl, skip_spaces_eq_self rest (hhead (Or.inr rfl)),
            ih n false hrest hch' (by simp)]
        · simp only [hc, hs, if_false, List.cons.injEq, true_and]
          exact ih n false hrest hch' (by simp)

theorem find_last_not_of_last (c : Char) : ∀ (s : List Char) (x : Char),
    s.getLast? = some x → x ≠ c → find_last_not_of c s = some (s.length - 1) := by
  intro s
  induction s with
  | nil => intro x h; simp at h
  | cons y rest ih =>
    intro x hx hxc
    cases rest with
    | nil =>
      simp only [List.getLast?_singleton, Option.some.injEq] at hx
      subst hx
      simp [find_last_not_of, hxc]
    | cons z r =>
      rw [List.getLast?_cons_cons] at hx
      have := ih x hx hxc
      rw [find_last_not_of, this]
      simp

theorem trim_fixed (t : List Char) (hh : t.head? ≠ some ' ') (hl : t.getLast? ≠ some ' ') :
    (match find_first_not_of ' ' t, find_last_not_of ' ' t with
      | some start, some end_pos => substr t start (end_pos - start + 1)
      | _, _ => []) = t := by
  cases t with
  | nil => simp [find_first_not_of]
  | cons c rest =>
    have hc : c ≠ ' ' := by simpa using hh
    obtain ⟨x, hx⟩ : ∃ x, (c :: rest).getLast? = some x := by
      cases h : (c :: rest).getLast? with
      | none => simp at h
      | some x => exact ⟨x, rfl⟩
    have hxc : x ≠ ' ' := by
      intro h
      exact hl (by rw [hx, h])
    have h1 : find_first_not_of ' ' (c :: rest) = some 0 := by simp [find_first_not_of, hc]
    have h2 := find_last_not_of_last ' ' (c :: rest) x hx hxc
    rw [h1, h2]
    simp [substr]

theorem clean_buffer_fixed (t : List Char) (hch : List.Chain' clean_adjacent t)
    (hh : t.head? ≠ some ' ') (hl : t.getLast? ≠ some ' ') : clean_buffer t = t := by
  unfold clean_buffer
  simp only
  rw [clean_loop_fixed t t.length false (le_refl _) hch (by simp)]
  exact trim_fixed t hh hl

/-! ## Splitting and joining -/

theorem split_ne_nil (text : List Char) (delim : Char) : split text delim ≠ [] := by
  cases text with
  | nil => simp [split]
  | cons c rest =>
    simp only [split]
    split
    · simp
    · split <;> simp

theorem split_cons_delim (rest : List Char) (delim : Char) :
    split (delim :: rest) delim = [] :: split rest delim := by
  simp [split]

theorem split_cons_other (c : Char) (rest : List Char) (delim : Char) (h : c ≠ delim) :
    ∃ w ws, split rest delim = w :: ws ∧ split (c :: rest) delim = (c :: w) :: ws := by
  cases hs : split rest delim with
  | nil => exact absurd hs (split_ne_nil rest delim)
  | cons w ws =>
    refine ⟨w, ws, rfl, ?_⟩
    simp [split, h, hs]

theorem join_with_cons_cons (sep : Char) (w w' : List Char) (ws : List (List Char)) :
    join_with sep (w :: w' :: ws) = w ++ sep :: join_with sep (w' :: ws) := rfl

theorem join_with_cons (sep : Char) (w : List Char) (ws : List (List Char)) (h : ws ≠ []) :
    join_with sep (w :: ws) = w ++ sep :: join_with sep ws := by
  cases ws with
  | nil => exact absurd rfl h
  | cons w' ws' => rfl

theorem join_split (delim : Char) : ∀ (text : List Char), join_with delim (split text delim) = text := by
  intro text
  induction text with
  | nil => simp [split, join_with]
  | cons c rest ih =>
    by_cases h : c = delim
    · subst h
      rw [split_cons_delim, join_with_cons _ _ _ (split_ne_nil rest c), ih]
      simp
    · obtain ⟨w, ws, h1, h2⟩ := split_cons_other c rest delim h
      rw [h2]
      rw [h1] at ih
      cases ws with
      | nil =>
        simp only [join_with] at ih ⊢
        rw [ih]
      | cons w' ws' =>
        rw [join_with_cons_cons] at ih ⊢
        rw [← ih]
        simp

theorem split_no_delim (delim : Char) : ∀ (text : List Char), ∀ w ∈ split text delim, delim ∉ w := by
  intro text
  induction text with
  | nil => intro w hw; simp [split] at hw; simp [hw]
  | cons c rest ih =>
    intro w hw
    by_cases h : c = delim
    · subst h
      rw [split_cons_delim] at hw
      rcases List.mem_cons.mp hw with rfl | hw'
      · simp
      · exact ih w hw'
    · obtain ⟨w0, ws, h1, h2⟩ := split_cons_other c rest delim h
      rw [h2] at hw
      rw [h1] at ih
      rcases List.mem_cons.mp hw with rfl | hw'
      · intro hmem
        rcases List.mem_cons.mp hmem with h' | h'
        · exact h h'.symm
        · exact ih w0 (List.mem_cons_self _ _) h'
      · exact ih w (List.mem_cons_of_mem _ hw')

theorem join_with_length (sep : Char) : ∀ (segs : List (List Char)), segs ≠ [] →
    (join_with sep segs).length + 1 = (segs.map (fun w => w.length + 1)).sum := by
  intro segs
  induction segs with
  | nil => intro h; exact absurd rfl h
  | cons w ws ih =>
    intro _
    cases ws with
    | nil => simp [join_with]
    | cons w' ws' =>
      have := ih (by simp)
      rw [join_with_cons_cons]
      simp only [List.length_append, List.length_cons, List.map_cons, List.sum_cons] at this ⊢
      omega

theorem segment_offset_zero (segs : List (List Char)) : segment_offset segs 0 = 0 := by
  simp [segment_offset]

theorem segment_offset_succ (w : List Char) (ws : List (List Char)) (i : Nat) :
    segment_offset (w :: ws) (i + 1) = w.length + 1 + segment_offset ws i := by
  simp [segment_offset]

/-- Dropping the offset of segment `i` from a joined text leaves the
segments from `i` on, joined. -/
theorem join_with_drop (sep : Char) : ∀ (segs : List (List Char)) (i : Nat), i < segs.length →
    (join_with sep segs).drop (segment_offset segs i) = join_with sep (segs.drop i) := by
  intro segs
  induction segs with
  | nil => intro i h; simp at h
  | cons w ws ih =>
    intro i hi
    cases i with
    | zero => simp [segment_offset]
    | succ k =>
      have hk : k < ws.length := by simpa using hi
      have hne : ws ≠ [] := by intro h; simp [h] at hk
      rw [segment_offset_succ, join_with_cons _ _ _ hne, List.drop_succ_cons, ← ih k hk]
      rw [← List.drop_drop]
      congr 1
      have : w.length + 1 = (w ++ [sep]).length := by simp
      rw [this, ← List.drop_left (w ++ [sep]) (join_with sep ws)]
      simp

theorem segment_offset_add_le (sep : Char) : ∀ (segs : List (List Char)) (i : Nat) (w : List Char),
    segs[i]? = some w → segment_offset segs i + w.length ≤ (join_with sep segs).length := by
  intro segs
  induction segs with
  | nil => intro i w h; simp at h
  | cons x xs ih =>
    intro i w h
    cases i with
    | zero =>
      simp only [List.getElem?_cons_zero, Option.some.injEq] at h
      subst h
      rw [segment_offset_zero]
      cases xs with
      | nil => simp [join_with]
      | cons y ys => rw [join_with_cons_cons]; simp
    | succ k =>
      simp only [List.getElem?_cons_succ] at h
      have hne : xs ≠ [] := by intro h'; simp [h'] at h
      have := ih k w h
      rw [segment_offset_succ, join_with_cons _ _ _ hne]
      simp only [List.length_append, List.length_cons]
      omega

/-- Every segment of a joined text is found at its offset. -/
theorem join_with_segment (sep : Char) (segs : List (List Char)) (i : Nat) (w : List Char)
    (h : segs[i]? = some w) :
    ∃ tail, (join_with sep segs).drop (segment_offset segs i) = w ++ tail := by
  have hi : i < segs.length := by
    rcases List.getElem?_eq_some.mp h with ⟨hi, _⟩
    exact hi
  rw [join_with_drop sep segs i hi]
  have hd : segs.drop i = w :: segs.drop (i + 1) := by
    rw [List.drop_eq_getElem_cons hi]
    rcases List.getElem?_eq_some.mp h with ⟨_, hw⟩
    rw [hw]
  rw [hd]
  cases hrest : segs.drop (i + 1) with
  | nil => exact ⟨[], by simp [join_with]⟩
  | cons y ys => exact ⟨sep :: join_with sep (y :: ys), rfl⟩

/-! ## Machine arithmetic within range -/

theorem to_int_of_lt (n : Nat) (h : n < 2 ^ 31) : to_int n = (n : Int) := by
  unfold to_int
  omega

theorem size_add_of_lt (a b : Nat) (h : a + b < 2 ^ 64) : size_add a b = a + b := by
  unfold size_add
  omega

theorem to_size_t_natCast (n : Nat) (h : n < 2 ^ 64) : to_size_t (n : Int) = n := by
  unfold to_size_t
  omega

theorem size_sub_one (n : Nat) (h1 : 0 < n) (h2 : n < 2 ^ 31) :
    to_int (size_sub n 1) = (n : Int) - 1 := by
  unfold to_int size_sub
  omega

/-- Adding a wrapped difference of sizes to an `int` is signed addition of
the difference whenever the result is an `int`. -/
theorem add_assign_size_sub (x : Int) (a b : Nat) (hx1 : -2 ^ 31 ≤ x) (hx2 : x < 2 ^ 31)
    (ha : a < 2 ^ 31) (hb : b < 2 ^ 31)
    (h1 : -2 ^ 31 ≤ x + ((a : Int) - (b : Int))) (h2 : x + ((a : Int) - (b : Int)) < 2 ^ 31) :
    add_assign x (size_sub a b) = x + ((a : Int) - (b : Int)) := by
  unfold add_assign to_int size_add to_size_t size_sub
  omega

/-! ## The parser computes the reference layout -/

theorem find_from_hit (word : List Char) : ∀ (l : List Char) (p : Nat), word <+: l →
    find_from word l p = p := by
  intro l p h
  cases l with
  | nil =>
    have : word = [] := List.prefix_nil.mp h
    simp [find_from, this]
  | cons c rest =>
    have : word.isPrefixOf (c :: rest) = true := List.isPrefixOf_iff_prefix.mpr h
    simp [find_from, this]

theorem string_find_at (buffer word : List Char) (pos : Nat) (hpos : pos ≤ buffer.length)
    (h : word <+: buffer.drop pos) : string_find buffer word pos = pos := by
  unfold string_find
  rw [if_pos hpos]
  exact find_from_hit word _ pos h

theorem parse_words_eq (buffer : List Char) (size : Nat) (hlen : buffer.length + 1 < 2 ^ 31) :
    ∀ (words : List (List Char)) (j pos : Nat) (post : List Char),
      j + words.length = size → words ≠ [] → pos ≤ buffer.length →
      buffer.drop pos = join_with ' ' words ++ post →
      parse_words buffer size words j pos
        = (words_layout words j pos, pos + (join_with ' ' words).length) := by
  intro words
  induction words with
  | nil => intro j pos post _ h; exact absurd rfl h
  | cons w ws ih =>
    intro j pos post hsize _ hpos hdrop
    have hlen2 : (buffer.drop pos).length = buffer.length - pos := List.length_drop pos buffer
    cases ws with
    | nil =>
      simp only [join_with] at hdrop ⊢
      have hfind : string_find buffer w pos = pos :=
        string_find_at buffer w pos hpos (by rw [hdrop]; exact List.prefix_append _ _)
      rw [hdrop, List.length_append] at hlen2
      have hj : ¬ (j < size - 1) := by simp at hsize; omega
      simp only [parse_words, hfind, if_neg hj, words_layout]
      rw [size_add_of_lt _ _ (by omega), to_int_of_lt _ (by omega), to_int_of_lt _ (by omega)]
      simp
    | cons w' ws' =>
      rw [join_with_cons_cons] at hdrop ⊢
      have hfind : string_find buffer w pos = pos :=
        string_find_at buffer w pos hpos (by rw [hdrop, List.append_assoc]; exact List.prefix_append _ _)
      have hlen3 := hlen2
      rw [hdrop] at hlen3
      simp only [List.length_append, List.length_cons] at hlen3
      have hj : j < size - 1 := by simp at hsize; omega
      have hdrop' : buffer.drop (pos + w.length + 1) = join_with ' ' (w' :: ws') ++ post := by
        have h1 : pos + w.length + 1 = pos + (w ++ [' ']).length := by simp; omega
        rw [h1, ← List.drop_drop, hdrop]
        have h2 : w ++ ' ' :: join_with ' ' (w' :: ws') ++ post
            = (w ++ [' ']) ++ (join_with ' ' (w' :: ws') ++ post) := by simp
        rw [h2, List.drop_left]
      have hrec := ih (j + 1) (pos + w.length + 1) post (by simp at hsize ⊢; omega) (by simp)
        (by omega) hdrop'
      rw [parse_words, words_layout]
      simp only [hfind, if_pos hj]
      rw [size_add_of_lt _ _ (by omega), size_add_of_lt _ _ (by omega), hrec,
        to_int_of_lt _ (by omega), to_int_of_lt _ (by omega)]
      simp only [List.length_append, List.length_cons, Prod.mk.injEq, List.cons.injEq, and_true]
      exact ⟨by simp, by omega⟩

theorem length_le_sum_succ : ∀ (segs : List (List Char)),
    segs.length ≤ (segs.map (fun w => w.length + 1)).sum := by
  intro segs
  induction segs with
  | nil => simp
  | cons w ws ih => simp only [List.length_cons, List.map_cons, List.sum_cons]; omega

theorem split_length_le (text : List Char) (delim : Char) :
    (split text delim).length ≤ text.length + 1 := by
  have h1 := join_with_length delim (split text delim) (split_ne_nil text delim)
  rw [join_split] at h1
  have h2 := length_le_sum_succ (split text delim)
  omega

theorem parse_scopes_eq (reg : registry) (buffer : List Char) (command_count : Int)
    (hlen : buffer.length + 1 < 2 ^ 31) :
    ∀ (subs : List (List Char)) (i base : Nat),
      subs ≠ [] → ((i + subs.length : Nat) : Int) ≤ command_count → base ≤ buffer.length →
      buffer.drop base = join_with ';' subs →
      parse_scopes reg buffer command_count subs i (base : Int)
        = (scopes_layout reg subs i base, ((base + (join_with ';' subs).length + 1 : Nat) : Int)) := by
  intro subs
  induction subs with
  | nil => intro i base h; exact absurd rfl h
  | cons sub rest ih =>
    intro i base _ hcc hbase hdrop
    have hi : (i : Int) < command_count := by
      simp only [List.length_cons] at hcc
      omega
    have hlen2 : (buffer.drop base).length = buffer.length - base := List.length_drop base buffer
    have hwords : split sub ' ' ≠ [] := split_ne_nil sub ' '
    have hjoin : join_with ' ' (split sub ' ') = sub := join_split ' ' sub
    have hwl := split_length_le sub ' '
    have hwpos : 0 < (split sub ' ').length := List.length_pos.mpr hwords
    cases rest with
    | nil =>
      simp only [join_with] at hdrop ⊢
      rw [hdrop] at hlen2
      have hpw := parse_words_eq buffer (split sub ' ').length hlen (split sub ' ') 0 base []
        (by simp) hwords hbase (by rw [hjoin, hdrop]; simp)
      rw [hjoin] at hpw
      have b1 : base + sub.length + 1 < 2 ^ 31 := by omega
      have b2 : (split sub ' ').length < 2 ^ 31 := by omega
      have b3 : base < 2 ^ 64 := by omega
      have e1 : size_add (base + sub.length) 1 = base + sub.length + 1 :=
        size_add_of_lt _ _ (lt_trans b1 (by norm_num))
      have e2 : to_int (base + sub.length) = ((base + sub.length : Nat) : Int) :=
        to_int_of_lt _ (lt_trans (Nat.lt_succ_self _) b1)
      have e3 : to_int (base + sub.length + 1) = ((base + sub.length + 1 : Nat) : Int) :=
        to_int_of_lt _ b1
      have e4 : to_int (size_sub (split sub ' ').length 1) = ((split sub ' ').length : Int) - 1 :=
        size_sub_one _ hwpos b2
      rw [parse_scopes, if_pos hi]
      simp only [to_size_t_natCast base b3, hpw, parse_scopes, scopes_layout, e1, e2, e3, e4]
      simp
    | cons sub' rest' =>
      rw [join_with_cons_cons] at hdrop ⊢
      have hlen3 := hlen2
      rw [hdrop] at hlen3
      simp only [List.length_append, List.length_cons] at hlen3
      have hpw := parse_words_eq buffer (split sub ' ').length hlen (split sub ' ') 0 base
        (';' :: join_with ';' (sub' :: rest')) (by simp) hwords hbase (by rw [hjoin, hdrop])
      rw [hjoin] at hpw
      have hdrop' : buffer.drop (base + sub.length + 1) = join_with ';' (sub' :: rest') := by
        have h1 : base + sub.length + 1 = base + (sub ++ [';']).length := by simp; omega
        rw [h1, ← List.drop_drop, hdrop]
        have h2 : sub ++ ';' :: join_with ';' (sub' :: rest')
            = (sub ++ [';']) ++ join_with ';' (sub' :: rest') := by simp
        rw [h2, List.drop_left]
      have hrec := ih (i + 1) (base + sub.length + 1) (by simp)
        (by simp only [List.length_cons] at hcc ⊢; omega) (by omega) hdrop'
      have b1 : base + sub.length + 1 < 2 ^ 31 := by omega
      have b2 : (split sub ' ').length < 2 ^ 31 := by omega
      have b3 : base < 2 ^ 64 := by omega
      have e1 : size_add (base + sub.length) 1 = base + sub.length + 1 :=
        size_add_of_lt _ _ (lt_trans b1 (by norm_num))
      have e2 : to_int (base + sub.length) = ((base + sub.length : Nat) : Int) :=
        to_int_of_lt _ (lt_trans (Nat.lt_succ_self _) b1)
      have e3 : to_int (base + sub.length + 1) = ((base + sub.length + 1 : Nat) : Int) :=
        to_int_of_lt _ b1
      have e4 : to_int (size_sub (split sub ' ').length 1) = ((split sub ' ').length : Int) - 1 :=
        size_sub_one _ hwpos b2
      rw [parse_scopes, if_pos hi, scopes_layout]
      simp only [to_size_t_natCast base b3, hpw, e1, e2, e3, e4, hrec]
      simp only [List.length_append, List.length_cons, Prod.mk.injEq, List.cons.injEq, and_true]
      exact ⟨by simp, by omega⟩

/-- The scopes that the parser records for a buffer are the reference
layout of its sub-commands. -/
theorem parse_buffer_scopes (reg : registry) (buffer : List Char)
    (hlen : buffer.length + 1 < 2 ^ 31) :
    (parse_buffer reg (initial buffer)).command_scopes
      = scopes_layout reg (split buffer ';') 0 0 ∧
    (parse_buffer reg (initial buffer)).command_count = ((split buffer ';').length : Int) ∧
    (parse_buffer reg (initial buffer)).buffer = buffer := by
  have hsl := split_length_le buffer ';'
  have hcc : to_int (split buffer ';').length = ((split buffer ';').length : Int) :=
    to_int_of_lt _ (by omega)
  have h := parse_scopes_eq reg buffer ((split buffer ';').length : Int) hlen (split buffer ';') 0 0
    (split_ne_nil buffer ';') (by simp) (by omega) (by rw [join_split]; rfl)
  simp only [Nat.cast_zero] at h
  simp only [parse_buffer, initial, hcc, h, List.nil_append, and_self]

/-! ## Reading the reference layout -/

theorem words_layout_length : ∀ (words : List (List Char)) (j pos : Nat),
    (words_layout words j pos).length = words.length := by
  intro words
  induction words with
  | nil => intro j pos; rfl
  | cons w ws ih => intro j pos; simp [words_layout, ih]

theorem words_layout_getElem : ∀ (words : List (List Char)) (j0 pos k : Nat) (w : List Char),
    words[k]? = some w →
    (words_layout words j0 pos)[k]? = some
      { name := w
        index := ((j0 + k : Nat) : Int)
        is_argument := decide (j0 + k > 0)
        start_index := ((pos + segment_offset words k : Nat) : Int)
        end_index := ((pos + segment_offset words k : Nat) : Int) + w.length } := by
  intro words
  induction words with
  | nil => intro j0 pos k w h; simp at h
  | cons x xs ih =>
    intro j0 pos k w h
    cases k with
    | zero =>
      simp only [List.getElem?_cons_zero, Option.some.injEq] at h
      subst h
      simp [words_layout, segment_offset_zero]
    | succ k =>
      simp only [List.getElem?_cons_succ] at h
      have := ih (j0 + 1) (pos + x.length + 1) k w h
      simp only [words_layout, List.getElem?_cons_succ, this, segment_offset_succ]
      have e1 : j0 + 1 + k = j0 + (k + 1) := by omega
      have e2 : pos + x.length + 1 + segment_offset xs k
          = pos + (x.length + 1 + segment_offset xs k) := by omega
      rw [e1, e2]

theorem scopes_layout_length (reg : registry) : ∀ (subs : List (List Char)) (i base : Nat),
    (scopes_layout reg subs i base).length = subs.length := by
  intro subs
  induction subs with
  | nil => intro i base; rfl
  | cons w ws ih => intro i base; simp [scopes_layout, ih]

theorem scopes_layout_getElem (reg : registry) :
    ∀ (subs : List (List Char)) (i0 base k : Nat) (sub : List Char),
    subs[k]? = some sub →
    (scopes_layout reg subs i0 base)[k]? = some
      { cmd := reg ((split sub ' ').headD [])
        name := (split sub ' ').headD []
        index := ((i0 + k : Nat) : Int)
        start_index := ((base + segment_offset subs k : Nat) : Int)
        raw := sub
        argument_count := ((split sub ' ').length : Int) - 1
        arguments := words_layout (split sub ' ') 0 (base + segment_offset subs k)
        end_index := ((base + segment_offset subs k + sub.length : Nat) : Int) } := by
  intro subs
  induction subs with
  | nil => intro i0 base k sub h; simp at h
  | cons x xs ih =>
    intro i0 base k sub h
    cases k with
    | zero =>
      simp only [List.getElem?_cons_zero, Option.some.injEq] at h
      subst h
      simp [scopes_layout, segment_offset_zero]
    | succ k =>
      simp only [List.getElem?_cons_succ] at h
      have := ih (i0 + 1) (base + x.length + 1) k sub h
      simp only [scopes_layout, List.getElem?_cons_succ, this, segment_offset_succ]
      have e1 : i0 + 1 + k = i0 + (k + 1) := by omega
      have e2 : base + x.length + 1 + segment_offset xs k
          = base + (x.length + 1 + segment_offset xs k) := by omega
      rw [e1, e2]

/-- Word `j` of sub-command `i` is read off the buffer at its own offset. -/
theorem token_at_own_offset (buffer : List Char) (i j : Nat) (sub w : List Char)
    (hsub : (split buffer ';')[i]? = some sub) (hw : (split sub ' ')[j]? = some w) :
    own_offset buffer i j = segment_offset (split buffer ';') i + segment_offset (split sub ' ') j ∧
    own_offset buffer i j + w.length ≤ buffer.length ∧
    segment_offset (split buffer ';') i + sub.length ≤ buffer.length ∧
    segment_offset (split sub ' ') j + w.length ≤ sub.length ∧
    substr buffer (own_offset buffer i j) w.length = w := by
  have hoff : own_offset buffer i j
      = segment_offset (split buffer ';') i + segment_offset (split sub ' ') j := by
    simp [own_offset, List.getD_eq_getElem?_getD, hsub]
  have h1 := segment_offset_add_le ';' (split buffer ';') i sub hsub
  rw [join_split] at h1
  have h2 := segment_offset_add_le ' ' (split sub ' ') j w hw
  rw [join_split] at h2
  obtain ⟨tail1, ht1⟩ := join_with_segment ';' (split buffer ';') i sub hsub
  rw [join_split] at ht1
  obtain ⟨tail2, ht2⟩ := join_with_segment ' ' (split sub ' ') j w hw
  rw [join_split] at ht2
  refine ⟨hoff, by omega, h1, h2, ?_⟩
  rw [hoff, substr, ← List.drop_drop, ht1, List.drop_append_of_le_length (by omega), ht2,
    List.append_assoc, List.take_left]

theorem segment_offset_step (segs : List (List Char)) (i : Nat) (w : List Char)
    (h : segs[i]? = some w) : segment_offset segs (i + 1) = segment_offset segs i + w.length + 1 := by
  simp only [segment_offset, List.take_succ, h, Option.toList, List.map_append, List.map_cons,
    List.map_nil, List.sum_append, List.sum_cons, List.sum_nil]
  omega

theorem segment_offset_mono (segs : List (List Char)) : ∀ (i k : Nat) (w : List Char),
    segs[i]? = some w → i < k → segment_offset segs i + w.length + 1 ≤ segment_offset segs k := by
  intro i k w h hik
  induction k with
  | zero => omega
  | succ k ih =>
    by_cases hk : i = k
    · subst hk
      rw [segment_offset_step segs i w h]
    · have h1 := ih (by omega)
      have h2 : segment_offset segs k ≤ segment_offset segs (k + 1) := by
        simp only [segment_offset, List.take_succ, List.map_append, List.sum_append]
        omega
      omega

/-- The scopes of the object that the constructor builds. -/
theorem constructor_scopes (reg : registry) (raw : List Char) (hlen : raw.length + 1 < 2 ^ 31) :
    (serialized_buffer.serialized_buffer reg raw).command_scopes
      = (if raw = [] then [] else scopes_layout reg (split raw ';') 0 0) ∧
    (serialized_buffer.serialized_buffer reg raw).command_count
      = (if raw = [] then 0 else ((split raw ';').length : Int)) := by
  unfold serialized_buffer.serialized_buffer
  by_cases h : raw = []
  · subst h
    simp [initial]
  · have hne : raw.isEmpty = false := by
      cases raw with
      | nil => exact absurd rfl h
      | cons c rest => rfl
    have hp := parse_buffer_scopes reg raw hlen
    simp only [hne, Bool.false_eq_true, if_false, if_neg h]
    exact ⟨hp.1, hp.2.1⟩

/-- Every scope that the parser records, read off the buffer: scope `i` is
sub-command `i`, laid out from that sub-command's offset on. -/
theorem parsed_scope_at (reg : registry) (scopes : List command_scope) (buffer : List Char)
    (hsc : scopes = scopes_layout reg (split buffer ';') 0 0) (i : Nat) (scope : command_scope)
    (hs : scopes[i]? = some scope) :
    ∃ sub, (split buffer ';')[i]? = some sub ∧ scope =
      { cmd := reg ((split sub ' ').headD [])
        name := (split sub ' ').headD []
        index := (i : Int)
        start_index := ((segment_offset (split buffer ';') i : Nat) : Int)
        raw := sub
        argument_count := ((split sub ' ').length : Int) - 1
        arguments := words_layout (split sub ' ') 0 (segment_offset (split buffer ';') i)
        end_index := ((segment_offset (split buffer ';') i + sub.length : Nat) : Int) } := by
  subst hsc
  have hi : i < (split buffer ';').length := by
    rcases List.getElem?_eq_some.mp hs with ⟨hi, _⟩
    rwa [scopes_layout_length] at hi
  refine ⟨(split buffer ';')[i], List.getElem?_eq_getElem hi, ?_⟩
  have h := scopes_layout_getElem reg (split buffer ';') 0 0 i _ (List.getElem?_eq_getElem hi)
  rw [hs] at h
  simp only [Nat.zero_add, Option.some.injEq] at h
  exact h

/-- Every argument of a laid out scope: argument `j` is word `j`. -/
theorem parsed_argument_at (words : List (List Char)) (pos j : Nat) (arg : argument)
    (ha : (words_layout words 0 pos)[j]? = some arg) :
    ∃ w, words[j]? = some w ∧ arg =
      { name := w
        index := (j : Int)
        is_argument := decide (j > 0)
        start_index := ((pos + segment_offset words j : Nat) : Int)
        end_index := ((pos + segment_offset words j : Nat) : Int) + w.length } := by
  have hj : j < words.length := by
    rcases List.getElem?_eq_some.mp ha with ⟨hj, _⟩
    rwa [words_layout_length] at hj
  refine ⟨words[j], List.getElem?_eq_getElem hj, ?_⟩
  have h := words_layout_getElem words 0 pos j _ (List.getElem?_eq_getElem hj)
  rw [ha] at h
  simp only [Nat.zero_add, Option.some.injEq] at h
  exact h

/-! ## Cursor queries on a parsed line -/

/-- A separator character of a joined text sits right after one of the
segments, when no segment holds the separator. -/
theorem join_with_delim_at (sep : Char) : ∀ (segs : List (List Char)),
    (∀ w ∈ segs, sep ∉ w) → ∀ (p : Nat), (join_with sep segs)[p]? = some sep →
    ∃ i w, segs[i]? = some w ∧ i + 1 < segs.length ∧ p = segment_offset segs i + w.length := by
  intro segs
  induction segs with
  | nil => intro _ p h; simp [join_with] at h
  | cons w ws ih =>
    intro hfree p hp
    have hw : sep ∉ w := hfree w (List.mem_cons_self _ _)
    cases ws with
    | nil =>
      simp only [join_with] at hp
      exact absurd (List.mem_iff_getElem?.mpr ⟨p, hp⟩) hw
    | cons w' ws' =>
      rw [join_with_cons_cons] at hp
      rcases Nat.lt_trichotomy p w.length with hlt | heq | hgt
      · rw [List.getElem?_append_left hlt] at hp
        exact absurd (List.mem_iff_getElem?.mpr ⟨p, hp⟩) hw
      · exact ⟨0, w, rfl, by simp, by rw [segment_offset_zero]; omega⟩
      · rw [List.getElem?_append_right (by omega)] at hp
        obtain ⟨q, hq⟩ : ∃ q, p - w.length = q + 1 := ⟨p - w.length - 1, by omega⟩
        rw [hq, List.getElem?_cons_succ] at hp
        obtain ⟨i, x, hx, hi, hqv⟩ :=
          ih (fun y hy => hfree y (List.mem_cons_of_mem _ hy)) q hp
        refine ⟨i + 1, x, by simpa using hx, by simp only [List.length_cons] at hi ⊢; omega, ?_⟩
        rw [segment_offset_succ]
        omega

/-- In a laid out line the scope at position `k` whose inclusive range holds
`pos` is the one that the search of `get_command_scope` returns: the scopes
before it end before it starts. -/
theorem layout_find (reg : registry) (scopes : List command_scope) (buffer : List Char)
    (hsc : scopes = scopes_layout reg (split buffer ';') 0 0) (pos : Int) (k : Nat)
    (sc : command_scope) (hk : scopes[k]? = some sc)
    (hin : sc.start_index ≤ pos ∧ pos ≤ sc.end_index) :
    scopes.find? (in_scope pos) = some sc := by
  have hklt : k < scopes.length := by
    rcases List.getElem?_eq_some.mp hk with ⟨h, _⟩
    exact h
  have hkv : scopes[k] = sc := by
    rcases List.getElem?_eq_some.mp hk with ⟨_, h⟩
    exact h
  obtain ⟨sub, hsub, hscv⟩ := parsed_scope_at reg scopes buffer hsc k sc hk
  rw [List.find?_eq_some]
  refine ⟨by simp [in_scope, hin.1, hin.2], scopes.take k, scopes.drop (k + 1), ?_, ?_⟩
  · rw [← hkv, ← List.drop_eq_getElem_cons hklt, List.take_append_drop]
  · intro a ha
    obtain ⟨i, hi⟩ := List.mem_iff_getElem?.mp ha
    have hik : i < k := by
      by_contra hge
      rw [List.getElem?_take_eq_none (by omega)] at hi
      simp at hi
    rw [List.getElem?_take_of_lt hik] at hi
    obtain ⟨sub2, hsub2, hav⟩ := parsed_scope_at reg scopes buffer hsc i a hi
    have hmono := segment_offset_mono (split buffer ';') i k sub2 hsub2 hik
    have h1 : a.end_index = ((segment_offset (split buffer ';') i + sub2.length : Nat) : Int) := by
      rw [hav]
    have h2 : sc.start_index = ((segment_offset (split buffer ';') k : Nat) : Int) := by rw [hscv]
    have h3 : ¬ (pos ≤ a.end_index) := by
      rw [h1]
      have := hin.1
      rw [h2] at this
      omega
    simp [in_scope, h3]

/-- On a parsed model `get_command_scope` returns a scope exactly when that
scope is one of the model whose inclusive range holds the position. -/
theorem get_command_scope_iff (reg : registry) (raw : List Char) (hlen : raw.length + 1 < 2 ^ 31)
    (pos : Int) (scope : command_scope) :
    (serialized_buffer.serialized_buffer reg raw).get_command_scope pos = some scope ↔
      (scope ∈ (serialized_buffer.serialized_buffer reg raw).command_scopes ∧
        scope.start_index ≤ pos ∧ pos ≤ scope.end_index) := by
  have hc := (constructor_scopes reg raw hlen).1
  unfold get_command_scope
  constructor
  · intro h
    have h1 := List.find?_some h
    simp only [in_scope, Bool.and_eq_true, decide_eq_true_eq] at h1
    exact ⟨List.mem_of_find?_eq_some h, h1.1, h1.2⟩
  · rintro ⟨hmem, hin⟩
    by_cases hraw : raw = []
    · rw [hc, if_pos hraw] at hmem
      simp at hmem
    · rw [if_neg hraw] at hc
      obtain ⟨k, hk⟩ := List.mem_iff_getElem?.mp hmem
      exact layout_find reg _ raw hc pos k scope hk hin

/-! ## Renaming on a parsed line -/

theorem update_found_append {α : Type} (p : α → Bool) (f : α → α) :
    ∀ (front : List α) (x : α) (back : List α), (∀ a ∈ front, (!p a) = true) → p x = true →
    update_found p f (front ++ x :: back) = front ++ f x :: back := by
  intro front
  induction front with
  | nil => intro x back _ hx; simp [update_found, hx]
  | cons y ys ih =>
    intro x back hfront hx
    have hy : p y = false := by simpa using hfront y (List.mem_cons_self _ _)
    have := ih x back (fun a ha => hfront a (List.mem_cons_of_mem _ ha)) hx
    simp [update_found, hy, this]

theorem scopes_loop_length (body : command_scope → command_scope) (scope_index command_count : Int) :
    ∀ (l : List command_scope) (i0 : Nat),
    (scopes_loop body scope_index command_count i0 l).length = l.length := by
  intro l
  induction l with
  | nil => intro i0; rfl
  | cons x xs ih => intro i0; simp [scopes_loop, ih]

theorem scopes_loop_getElem (body : command_scope → command_scope) (scope_index command_count : Int) :
    ∀ (l : List command_scope) (i0 i : Nat),
    (scopes_loop body scope_index command_count i0 l)[i]? = (l[i]?).map (fun s =>
      if scope_index ≤ ((i0 + i : Nat) : Int) ∧ ((i0 + i : Nat) : Int) < command_count then body s
      else s) := by
  intro l
  induction l with
  | nil => intro i0 i; simp [scopes_loop]
  | cons x xs ih =>
    intro i0 i
    cases i with
    | zero => simp [scopes_loop]
    | succ i =>
      simp only [scopes_loop, List.getElem?_cons_succ, ih (i0 + 1) i]
      have e : i0 + 1 + i = i0 + (i + 1) := by omega
      rw [e]

/-- The ranges of a parsed scope and of its arguments lie inside the
buffer, and its name is no longer than the buffer. -/
theorem parsed_scope_bounds (reg : registry) (scopes : List command_scope) (buffer : List Char)
    (hsc : scopes = scopes_layout reg (split buffer ';') 0 0) (i : Nat) (scope : command_scope)
    (hs : scopes[i]? = some scope) :
    scope.index = (i : Int) ∧
    0 ≤ scope.start_index ∧ scope.start_index ≤ scope.end_index ∧
    scope.end_index ≤ (buffer.length : Int) ∧ scope.name.length ≤ buffer.length ∧
    ∀ a ∈ scope.arguments, 0 ≤ a.start_index ∧ a.start_index ≤ a.end_index ∧
      a.end_index ≤ (buffer.length : Int) := by
  obtain ⟨sub, hsub, hv⟩ := parsed_scope_at reg scopes buffer hsc i scope hs
  have hle := segment_offset_add_le ';' (split buffer ';') i sub hsub
  rw [join_split] at hle
  have hname : ((split sub ' ').headD []).length ≤ sub.length := by
    have hne := split_ne_nil sub ' '
    cases hw : split sub ' ' with
    | nil => exact absurd hw hne
    | cons w ws =>
      have h0 : (split sub ' ')[0]? = some w := by rw [hw]; simp
      have := segment_offset_add_le ' ' (split sub ' ') 0 w h0
      rw [join_split, segment_offset_zero] at this
      simp only [List.headD_cons]
      omega
  subst hv
  dsimp only
  refine ⟨rfl, by omega, by omega, by omega, by omega, ?_⟩
  intro a ha
  obtain ⟨j, hj⟩ := List.mem_iff_getElem?.mp ha
  obtain ⟨w, hw, hav⟩ := parsed_argument_at _ _ j a hj
  have hle2 := segment_offset_add_le ' ' (split sub ' ') j w hw
  rw [join_split] at hle2
  subst hav
  dsimp only
  refine ⟨by omega, by omega, by omega⟩

/-- The scopes after `update_command_of_scope`, position by position, when
the scope found is the one after `front`. -/
theorem update_command_scopes_getElem (reg : registry) (self : big.serialized_buffer) (pos : Int)
    (n : List Char) (sc : command_scope) (front back : List command_scope)
    (hsc : self.get_command_scope pos = some sc)
    (hL : self.command_scopes = front ++ sc :: back)
    (hfront : ∀ a ∈ front, (!in_scope pos a) = true) (i : Nat) :
    (update_command_of_scope reg self pos n).command_scopes[i]? =
      (self.command_scopes[i]?).map (fun s =>
        if sc.index ≤ (i : Int) ∧ (i : Int) < self.command_count then
          shift_scope (size_sub n.length sc.name.length) sc.index
            (if i = front.length then { s with cmd := reg n } else s)
        else (if i = front.length then { s with cmd := reg n } else s)) := by
  have hp : in_scope pos sc = true := List.find?_some hsc
  simp only [update_command_of_scope, hsc]
  rw [scopes_loop_getElem, hL, update_found_append _ _ front sc back hfront hp]
  simp only [Nat.zero_add]
  rcases Nat.lt_trichotomy i front.length with hlt | heq | hgt
  · rw [List.getElem?_append_left hlt, List.getElem?_append_left hlt]
    have hne : i ≠ front.length := by omega
    simp only [hne, if_false]
  · subst heq
    rw [List.getElem?_append_right (le_refl _), List.getElem?_append_right (le_refl _)]
    simp
  · rw [List.getElem?_append_right (by omega), List.getElem?_append_right (by omega)]
    obtain ⟨q, hq⟩ : ∃ q, i - front.length = q + 1 := ⟨i - front.length - 1, by omega⟩
    have hne : i ≠ front.length := by omega
    rw [hq]
    simp only [List.getElem?_cons_succ, hne, if_false]

/-! ## Renaming an argument on a parsed line -/

theorem update_found_length {α : Type} (p : α → Bool) (f : α → α) :
    ∀ (l : List α), (update_found p f l).length = l.length := by
  intro l
  induction l with
  | nil => rfl
  | cons x xs ih =>
    simp only [update_found]
    split <;> simp [ih]

theorem update_found_getElem {α : Type} (p : α → Bool) (f : α → α) :
    ∀ (l : List α) (j : Nat) (y : α), (update_found p f l)[j]? = some y →
    ∃ x, l[j]? = some x ∧ (y = x ∨ y = f x) := by
  intro l
  induction l with
  | nil => intro j y h; simp [update_found] at h
  | cons x xs ih =>
    intro j y h
    simp only [update_found] at h
    split at h
    · cases j with
      | zero =>
        simp only [List.getElem?_cons_zero, Option.some.injEq] at h
        exact ⟨x, by simp, Or.inr h.symm⟩
      | succ j =>
        simp only [List.getElem?_cons_succ] at h
        exact ⟨y, by simpa using h, Or.inl rfl⟩
    · cases j with
      | zero =>
        simp only [List.getElem?_cons_zero, Option.some.injEq] at h
        exact ⟨x, by simp, Or.inl h.symm⟩
      | succ j =>
        simp only [List.getElem?_cons_succ] at h
        simpa using ih j y h

/-- A loop over the scopes from the found one on, after an assignment
through the found pointer, position by position. -/
theorem loop_after_found_getElem (body f : command_scope → command_scope) (p : command_scope → Bool)
    (scope_index command_count : Int) (front back : List command_scope) (sc : command_scope)
    (hfront : ∀ a ∈ front, (!p a) = true) (hp : p sc = true) (i : Nat) :
    (scopes_loop body scope_index command_count 0
        (update_found p f (front ++ sc :: back)))[i]? =
      ((front ++ sc :: back)[i]?).map (fun s =>
        if scope_index ≤ (i : Int) ∧ (i : Int) < command_count then
          body (if i = front.length then f s else s)
        else (if i = front.length then f s else s)) := by
  rw [scopes_loop_getElem, update_found_append _ _ front sc back hfront hp]
  simp only [Nat.zero_add]
  rcases Nat.lt_trichotomy i front.length with hlt | heq | hgt
  · rw [List.getElem?_append_left hlt, List.getElem?_append_left hlt]
    have hne : i ≠ front.length := by omega
    simp only [hne, if_false]
  · subst heq
    rw [List.getElem?_append_right (le_refl _), List.getElem?_append_right (le_refl _)]
    simp
  · rw [List.getElem?_append_right (by omega), List.getElem?_append_right (by omega)]
    obtain ⟨q, hq⟩ : ∃ q, i - front.length = q + 1 := ⟨i - front.length - 1, by omega⟩
    have hne : i ≠ front.length := by omega
    rw [hq]
    simp only [List.getElem?_cons_succ, hne, if_false]

/-- The scopes after `update_argument_of_scope`, position by position, when
the scope found is the one after `front`. -/
theorem update_argument_scopes_getElem (self : big.serialized_buffer) (pos ord : Int)
    (n : List Char) (sc : command_scope) (arg : argument) (front back : List command_scope)
    (hsc : self.get_command_scope pos = some sc) (harg : sc.get_argument pos = some arg)
    (hL : self.command_scopes = front ++ sc :: back)
    (hfront : ∀ a ∈ front, (!in_scope pos a) = true) (i : Nat) :
    (update_argument_of_scope self pos ord n).command_scopes[i]? =
      (self.command_scopes[i]?).map (fun s =>
        if sc.index ≤ (i : Int) ∧ (i : Int) < self.command_count then
          shift_argument_end (size_sub n.length arg.name.length) sc.index arg.index
            (if i = front.length then assign_argument_name pos n s else s)
        else (if i = front.length then assign_argument_name pos n s else s)) := by
  have hp : in_scope pos sc = true := List.find?_some hsc
  simp only [update_argument_of_scope, hsc, harg]
  rw [hL]
  exact loop_after_found_getElem _ _ _ _ _ front back sc hfront hp i

/-- A parsed token ends as many positions after its start as its text is
long. -/
theorem parsed_argument_extent (reg : registry) (scopes : List command_scope) (buffer : List Char)
    (hsc : scopes = scopes_layout reg (split buffer ';') 0 0) (i : Nat) (scope : command_scope)
    (hs : scopes[i]? = some scope) (j : Nat) (a : argument) (ha : scope.arguments[j]? = some a) :
    a.index = (j : Int) ∧ a.end_index = a.start_index + (a.name.length : Int) := by
  obtain ⟨sub, _, hv⟩ := parsed_scope_at reg scopes buffer hsc i scope hs
  have harg : scope.arguments
      = words_layout (split sub ' ') 0 (segment_offset (split buffer ';') i) := by rw [hv]
  rw [harg] at ha
  obtain ⟨w, _, hav⟩ := parsed_argument_at _ _ j a ha
  subst hav
  exact ⟨rfl, rfl⟩

theorem shift_argument_end_arguments (d : Nat) (k t : Int) (s : command_scope) (j : Nat)
    (y : argument) (h : (shift_argument_end d k t s).arguments[j]? = some y) :
    ∃ x, s.arguments[j]? = some x ∧ y.index = x.index ∧ y.start_index = x.start_index ∧
      y.end_index = (if x.index = t then add_assign x.end_index d else x.end_index) := by
  simp only [shift_argument_end, List.getElem?_map] at h
  cases hx : s.arguments[j]? with
  | none => rw [hx] at h; simp at h
  | some x =>
    rw [hx] at h
    simp only [Option.map_some', Option.some.injEq] at h
    refine ⟨x, rfl, ?_⟩
    rw [← h]
    by_cases ht : x.index = t
    · simp only [ht, if_true, and_self]
    · simp only [ht, if_false, and_self]

theorem assign_argument_name_arguments (pos : Int) (n : List Char) (s : command_scope) (j : Nat)
    (y : argument) (h : (assign_argument_name pos n s).arguments[j]? = some y) :
    ∃ x, s.arguments[j]? = some x ∧ y.index = x.index ∧ y.start_index = x.start_index ∧
      y.end_index = x.end_index := by
  obtain ⟨x, hx, hy⟩ := update_found_getElem _ _ s.arguments j y h
  refine ⟨x, hx, ?_⟩
  rcases hy with rfl | rfl
  · exact ⟨rfl, rfl, rfl⟩
  · exact ⟨rfl, rfl, rfl⟩

/-- What `update_argument_of_scope` does to a parsed model, scope by scope
and argument by argument: the scopes before the found one stay; no scope
start moves; the found scope's end moves by `delta`; from the found scope
on, the end of every argument whose ordinal is that of the renamed one
moves by `delta`, and nothing else moves. -/
theorem update_argument_described (reg : registry) (raw n : List Char) (pos ord : Int)
    (sc : command_scope) (arg : argument) (hlen : raw.length + n.length + 1 < 2 ^ 31)
    (hsc : (serialized_buffer.serialized_buffer reg raw).get_command_scope pos = some sc)
    (harg : sc.get_argument pos = some arg) :
    (update_argument_of_scope (serialized_buffer.serialized_buffer reg raw) pos ord
        n).command_scopes.length
      = (serialized_buffer.serialized_buffer reg raw).command_scopes.length ∧
    ∀ (i : Nat) (s s' : command_scope),
      (serialized_buffer.serialized_buffer reg raw).command_scopes[i]? = some s →
      (update_argument_of_scope (serialized_buffer.serialized_buffer reg raw) pos ord
        n).command_scopes[i]? = some s' →
      s'.index = s.index ∧ s'.start_index = s.start_index ∧
      s'.end_index = (if s.index = sc.index
        then s.end_index + ((n.length : Int) - (arg.name.length : Int)) else s.end_index) ∧
      s'.arguments.length = s.arguments.length ∧
      (s.index < sc.index → s' = s) ∧
      (sc.index ≤ s.index → ∀ (j : Nat) (a a' : argument),
        s.arguments[j]? = some a → s'.arguments[j]? = some a' →
        a'.index = a.index ∧ a'.start_index = a.start_index ∧
        a'.end_index = (if a.index = arg.index
          then a.end_index + ((n.length : Int) - (arg.name.length : Int)) else a.end_index)) := by
  have hlen1 : raw.length + 1 < 2 ^ 31 := by omega
  obtain ⟨hc, hcc⟩ := constructor_scopes reg raw hlen1
  have hraw : raw ≠ [] := by
    intro h
    unfold get_command_scope at hsc
    rw [hc, if_pos h] at hsc
    simp at hsc
  rw [if_neg hraw] at hc hcc
  have hfind := hsc
  unfold get_command_scope at hfind
  obtain ⟨_, front, back, hL, hfront⟩ := List.find?_eq_some.mp hfind
  have hk : (serialized_buffer.serialized_buffer reg raw).command_scopes[front.length]? = some sc := by
    rw [hL, List.getElem?_append_right (le_refl _)]
    simp
  obtain ⟨hscidx, _, _, _, _, hscargs⟩ := parsed_scope_bounds reg _ raw hc front.length sc hk
  have hcount : (serialized_buffer.serialized_buffer reg raw).command_count
      = (((serialized_buffer.serialized_buffer reg raw).command_scopes.length : Nat) : Int) := by
    rw [hcc, hc, scopes_layout_length]
  have hargmem : arg ∈ sc.arguments := List.mem_of_find?_eq_some harg
  obtain ⟨j0, hj0⟩ := List.mem_iff_getElem?.mp hargmem
  obtain ⟨_, hargext⟩ := parsed_argument_extent reg _ raw hc front.length sc hk j0 arg hj0
  obtain ⟨harg0, _, harg2⟩ := hscargs arg hargmem
  have hname : arg.name.length ≤ raw.length := by omega
  have hshift : ∀ x : Int, 0 ≤ x → x ≤ (raw.length : Int) →
      add_assign x (size_sub n.length arg.name.length)
        = x + ((n.length : Int) - (arg.name.length : Int)) := by
    intro x hx1 hx2
    exact add_assign_size_sub x n.length arg.name.length (by omega) (by omega) (by omega) (by omega)
      (by omega) (by omega)
  constructor
  · simp only [update_argument_of_scope, hsc, harg]
    rw [scopes_loop_length, update_found_length]
  · intro i s s' hs hs'
    have hpt := update_argument_scopes_getElem _ pos ord n sc arg front back hsc harg hL hfront i
    rw [hs, hs'] at hpt
    simp only [Option.map_some', Option.some.injEq] at hpt
    obtain ⟨hsidx, hs0, hs1, hs2, _, hsargs⟩ := parsed_scope_bounds reg _ raw hc i s hs
    have hilt : i < (serialized_buffer.serialized_buffer reg raw).command_scopes.length := by
      rcases List.getElem?_eq_some.mp hs with ⟨h, _⟩
      exact h
    rw [hscidx, hcount] at hpt
    rw [hsidx, hscidx]
    rcases Nat.lt_trichotomy i front.length with hlt | heq | hgt
    · have h1 : ¬ (((front.length : Nat) : Int) ≤ (i : Int) ∧
          (i : Int) < (((serialized_buffer.serialized_buffer reg raw).command_scopes.length : Nat) : Int)) := by
        omega
      have h2 : i ≠ front.length := by omega
      have h3 : ¬ ((i : Int) = ((front.length : Nat) : Int)) := by omega
      rw [if_neg h1, if_neg h2] at hpt
      rw [hpt, if_neg h3]
      refine ⟨hsidx, rfl, rfl, rfl, fun _ => rfl, ?_⟩
      intro hle
      omega
    · have h1 : (((front.length : Nat) : Int) ≤ (i : Int) ∧
          (i : Int) < (((serialized_buffer.serialized_buffer reg raw).command_scopes.length : Nat) : Int)) := by
        omega
      have h3 : (i : Int) = ((front.length : Nat) : Int) := by omega
      rw [if_pos h1, if_pos heq] at hpt
      rw [if_pos h3]
      have hidx : s'.index = s.index := by rw [hpt]; rfl
      have hst : s'.start_index = s.start_index := by rw [hpt]; rfl
      have hen : s'.end_index = add_assign s.end_index (size_sub n.length arg.name.length) := by
        rw [hpt]
        simp [shift_argument_end, assign_argument_name, hsidx, h3]
      have hal : s'.arguments.length = s.arguments.length := by
        rw [hpt]
        simp [shift_argument_end, assign_argument_name, update_found_length]
      refine ⟨hidx.trans hsidx, hst, by rw [hen]; exact hshift _ (by omega) hs2, hal,
        fun h => by omega, ?_⟩
      intro _ j a a' ha ha'
      rw [hpt] at ha'
      obtain ⟨a1, ha1, e1, e2, e3⟩ := shift_argument_end_arguments _ _ _ _ j a' ha'
      obtain ⟨a2, ha2, f1, f2, f3⟩ := assign_argument_name_arguments pos n s j a1 ha1
      rw [ha] at ha2
      simp only [Option.some.injEq] at ha2
      subst ha2
      obtain ⟨ha0, ha1', ha2'⟩ := hsargs a (List.mem_iff_getElem?.mpr ⟨j, ha⟩)
      refine ⟨by rw [e1, f1], by rw [e2, f2], ?_⟩
      rw [e3, f1, f3]
      by_cases ht : a.index = arg.index
      · rw [if_pos ht, if_pos ht]
        exact hshift _ (by omega) ha2'
      · rw [if_neg ht, if_neg ht]
    · have h1 : (((front.length : Nat) : Int) ≤ (i : Int) ∧
          (i : Int) < (((serialized_buffer.serialized_buffer reg raw).command_scopes.length : Nat) : Int)) := by
        omega
      have h2 : i ≠ front.length := by omega
      have h3 : ¬ ((i : Int) = ((front.length : Nat) : Int)) := by omega
      rw [if_pos h1, if_neg h2] at hpt
      rw [if_neg h3]
      have hidx : s'.index = s.index := by rw [hpt]; rfl
      have hst : s'.start_index = s.start_index := by rw [hpt]; rfl
      have hen : s'.end_index = s.end_index := by
        rw [hpt]
        simp [shift_argument_end, hsidx, h3]
      have hal : s'.arguments.length = s.arguments.length := by
        rw [hpt]
        simp [shift_argument_end]
      refine ⟨hidx.trans hsidx, hst, hen, hal, fun h => by omega, ?_⟩
      intro _ j a a' ha ha'
      rw [hpt] at ha'
      obtain ⟨a1, ha1, e1, e2, e3⟩ := shift_argument_end_arguments _ _ _ _ j a' ha'
      rw [ha] at ha1
      simp only [Option.some.injEq] at ha1
      subst ha1
      obtain ⟨ha0, ha1', ha2'⟩ := hsargs a (List.mem_iff_getElem?.mpr ⟨j, ha⟩)
      refine ⟨e1, e2, ?_⟩
      rw [e3]
      by_cases ht : a.index = arg.index
      · rw [if_pos ht, if_pos ht]
        exact hshift _ (by omega) ha2'
      · rw [if_neg ht, if_neg ht]

/-! ## Token order -/

/-- The tokens of a laid out scope are in order. -/
theorem words_layout_ordered (words : List (List Char)) (pos : Nat) :
    tokens_ordered (words_layout words 0 pos) := by
  constructor
  · intro a ha
    obtain ⟨j, hj⟩ := List.mem_iff_getElem?.mp ha
    obtain ⟨w, _, hav⟩ := parsed_argument_at words pos j a hj
    subst hav
    dsimp only
    omega
  · intro j k a b hjk ha hb
    obtain ⟨w, hw, hav⟩ := parsed_argument_at words pos j a ha
    obtain ⟨w2, _, hbv⟩ := parsed_argument_at words pos k b hb
    have hmono := segment_offset_mono words j k w hw hjk
    subst hav
    subst hbv
    dsimp only
    omega

/-- Adding one signed difference to the start and the end of every token
keeps the tokens in order. -/
theorem shifted_tokens_ordered (d : Nat) (delta : Int) (args : List argument)
    (hfit : ∀ a ∈ args, add_assign a.start_index d = a.start_index + delta ∧
      add_assign a.end_index d = a.end_index + delta)
    (h : tokens_ordered args) :
    tokens_ordered (args.map (fun argument =>
      { argument with
        start_index := add_assign argument.start_index d
        end_index := add_assign argument.end_index d })) := by
  constructor
  · intro y hy
    obtain ⟨a, ha, rfl⟩ := List.mem_map.mp hy
    have h1 := h.1 a ha
    obtain ⟨e1, e2⟩ := hfit a ha
    dsimp only
    rw [e1, e2]
    omega
  · intro j k y z hjk hy hz
    rw [List.getElem?_map] at hy hz
    cases ha : args[j]? with
    | none => rw [ha] at hy; simp at hy
    | some a =>
      cases hb : args[k]? with
      | none => rw [hb] at hz; simp at hz
      | some b =>
        rw [ha] at hy
        rw [hb] at hz
        simp only [Option.map_some', Option.some.injEq] at hy hz
        have h2 := h.2 j k a b hjk ha hb
        obtain ⟨_, e2⟩ := hfit a (List.mem_iff_getElem?.mpr ⟨j, ha⟩)
        obtain ⟨e1, _⟩ := hfit b (List.mem_iff_getElem?.mpr ⟨k, hb⟩)
        rw [← hy, ← hz]
        dsimp only
        rw [e1, e2]
        omega

/-- One `update_command_of_scope` call that keeps every offset an `int`
keeps the tokens of every scope in order, on any model. -/
theorem update_command_keeps_order (reg : registry) (m : big.serialized_buffer) (pos : Int)
    (n : List Char) (hfit : rename_fits m pos n)
    (h : ∀ s ∈ m.command_scopes, tokens_ordered s.arguments) :
    ∀ s ∈ (update_command_of_scope reg m pos n).command_scopes, tokens_ordered s.arguments := by
  cases hsc : m.get_command_scope pos with
  | none =>
    simp only [update_command_of_scope, hsc]
    exact h
  | some sc =>
    obtain ⟨hn, hold, hall⟩ := hfit sc hsc
    intro s' hs'
    simp only [update_command_of_scope, hsc] at hs'
    obtain ⟨i, hi⟩ := List.mem_iff_getElem?.mp hs'
    rw [scopes_loop_getElem] at hi
    cases h1 : (update_found (in_scope pos) (fun s => { s with cmd := reg n }) m.command_scopes)[i]? with
    | none => rw [h1] at hi; simp at hi
    | some s1 =>
      rw [h1] at hi
      simp only [Option.map_some', Option.some.injEq] at hi
      obtain ⟨s, hs, hs1⟩ := update_found_getElem _ _ m.command_scopes i s1 h1
      have hsmem : s ∈ m.command_scopes := List.mem_iff_getElem?.mpr ⟨i, hs⟩
      have hargs1 : s1.arguments = s.arguments := by
        rcases hs1 with rfl | rfl
        · rfl
        · rfl
      have hord := h s hsmem
      split at hi
      · rw [← hi]
        have : (shift_scope (size_sub n.length sc.name.length) sc.index s1).arguments
            = s.arguments.map (fun argument =>
              { argument with
                start_index := add_assign argument.start_index (size_sub n.length sc.name.length)
                end_index := add_assign argument.end_index (size_sub n.length sc.name.length) }) := by
          rw [← hargs1]
          rfl
        rw [this]
        refine shifted_tokens_ordered _ ((n.length : Int) - (sc.name.length : Int)) s.arguments ?_ hord
        intro a ha
        obtain ⟨f1, f2, f3, f4⟩ := hall s hsmem a ha
        exact ⟨add_assign_size_sub _ _ _ f1.1 f1.2 hn hold f3.1 f3.2,
          add_assign_size_sub _ _ _ f2.1 f2.2 hn hold f4.1 f4.2⟩
      · rw [← hi, hargs1]
        exact hord

/-- The tokens of every scope of a parsed model are in order. -/
theorem parsed_tokens_ordered (reg : registry) (raw : List Char) (hlen : raw.length + 1 < 2 ^ 31) :
    ∀ s ∈ (serialized_buffer.serialized_buffer reg raw).command_scopes,
      tokens_ordered s.arguments := by
  intro s hs
  have hc := (constructor_scopes reg raw hlen).1
  by_cases hraw : raw = []
  · rw [hc, if_pos hraw] at hs
    simp at hs
  · rw [if_neg hraw] at hc
    obtain ⟨i, hi⟩ := List.mem_iff_getElem?.mp hs
    obtain ⟨sub, _, hv⟩ := parsed_scope_at reg _ raw hc i s hi
    have harg : s.arguments
        = words_layout (split sub ' ') 0 (segment_offset (split raw ';') i) := by rw [hv]
    rw [harg]
    exact words_layout_ordered _ _

/-- The tokens of every scope stay in order along a sequence of command
renames that keep every offset an `int`. -/
theorem command_renamed_ordered (reg : registry) (raw : List Char)
    (hlen : raw.length + 1 < 2 ^ 31) (m : big.serialized_buffer)
    (hm : command_renamed reg raw m) :
    ∀ s ∈ m.command_scopes, tokens_ordered s.arguments := by
  induction hm with
  | parsed => exact parsed_tokens_ordered reg raw hlen
  | renamed m0 pos n _ hfit ih => exact update_command_keeps_order reg m0 pos n hfit ih

/-! ## The tokens of a parsed scope cover it -/

/-- Every position from the start of a laid out scope to its end lies in
the inclusive range of one of its tokens. -/
theorem words_layout_covers : ∀ (words : List (List Char)) (j0 base : Nat) (p : Int),
    words ≠ [] → (base : Int) ≤ p → p ≤ ((base + (join_with ' ' words).length : Nat) : Int) →
    ∃ a ∈ words_layout words j0 base, a.start_index ≤ p ∧ p ≤ a.end_index := by
  intro words
  induction words with
  | nil => intro j0 base p h; exact absurd rfl h
  | cons w ws ih =>
    intro j0 base p _ h1 h2
    by_cases hp : p ≤ ((base + w.length : Nat) : Int)
    · refine ⟨_, List.mem_cons_self _ _, ?_, ?_⟩
      · exact h1
      · show p ≤ (base : Int) + (w.length : Int)
        omega
    · cases ws with
      | nil =>
        simp only [join_with] at h2
        exact absurd h2 hp
      | cons w' ws' =>
        rw [join_with_cons_cons] at h2
        simp only [List.length_append, List.length_cons] at h2
        obtain ⟨a, ha, ha1, ha2⟩ := ih (j0 + 1) (base + w.length + 1) p (by simp)
          (by omega) (by omega)
        exact ⟨a, List.mem_cons_of_mem _ ha, ha1, ha2⟩

/-- In a parsed model the scope that holds a position has a token that
holds it. -/
theorem parsed_scope_has_argument (reg : registry) (raw : List Char)
    (hlen : raw.length + 1 < 2 ^ 31) (pos : Int) (sc : command_scope)
    (hsc : (serialized_buffer.serialized_buffer reg raw).get_command_scope pos = some sc) :
    ∃ arg, sc.get_argument pos = some arg := by
  have hc := (constructor_scopes reg raw hlen).1
  have hin := ((get_command_scope_iff reg raw hlen pos sc).mp hsc)
  obtain ⟨hmem, h1, h2⟩ := hin
  have hraw : raw ≠ [] := by
    intro h
    rw [hc, if_pos h] at hmem
    simp at hmem
  rw [if_neg hraw] at hc
  obtain ⟨i, hi⟩ := List.mem_iff_getElem?.mp hmem
  obtain ⟨sub, _, hv⟩ := parsed_scope_at reg _ raw hc i sc hi
  have hst : sc.start_index = ((segment_offset (split raw ';') i : Nat) : Int) := by rw [hv]
  have hen : sc.end_index = ((segment_offset (split raw ';') i + sub.length : Nat) : Int) := by
    rw [hv]
  have harg : sc.arguments
      = words_layout (split sub ' ') 0 (segment_offset (split raw ';') i) := by rw [hv]
  obtain ⟨a, ha, ha1, ha2⟩ := words_layout_covers (split sub ' ') 0
    (segment_offset (split raw ';') i) pos (split_ne_nil sub ' ') (by rw [← hst]; exact h1)
    (by rw [join_split, ← hen]; exact h2)
  rw [← harg] at ha
  cases hfind : sc.get_argument pos with
  | some arg => exact ⟨arg, rfl⟩
  | none =>
    unfold command_scope.get_argument at hfind
    rw [List.find?_eq_none] at hfind
    have := hfind a ha
    simp only [Bool.and_eq_true, decide_eq_true_eq, ge_iff_le, not_and, not_le] at this
    have := this ha1
    omega

/-! ## What the cleaning test flags -/

/-- A line that `buffer_needs_cleaning` flags holds two neighbours that are
two spaces, two semicolons, or a semicolon and a space. -/
theorem buffer_needs_cleaning_pair : ∀ (t : List Char), buffer_needs_cleaning t = true →
    ∃ (i : Nat) (a b : Char), t[i]? = some a ∧ t[i + 1]? = some b ∧
      ((a = ' ' ∧ b = ' ') ∨ (a = ';' ∧ (b = ';' ∨ b = ' '))) := by
  intro t
  induction t with
  | nil => intro h; simp [buffer_needs_cleaning] at h
  | cons c rest ih =>
    intro h
    have hrec : buffer_needs_cleaning rest = true →
        ∃ (i : Nat) (a b : Char), (c :: rest)[i]? = some a ∧ (c :: rest)[i + 1]? = some b ∧
          ((a = ' ' ∧ b = ' ') ∨ (a = ';' ∧ (b = ';' ∨ b = ' '))) := by
      intro hr
      obtain ⟨i, a, b, h1, h2, h3⟩ := ih hr
      exact ⟨i + 1, a, b, by simpa using h1, by simpa using h2, h3⟩
    have hhead : ∀ b, rest.head? = some b → (c :: rest)[0 + 1]? = some b := by
      intro b hb
      cases rest with
      | nil => simp at hb
      | cons d r => simpa using hb
    simp only [buffer_needs_cleaning] at h
    split at h
    · rename_i hc
      split at h
      · rename_i hb
        exact ⟨0, c, ' ', by simp, hhead ' ' hb, Or.inl ⟨hc, rfl⟩⟩
      · exact hrec h
    · split at h
      · rename_i hc
        split at h
        · rename_i hb
          rcases hb with hb | hb
          · exact ⟨0, c, ';', by simp, hhead ';' hb, Or.inr ⟨hc, Or.inl rfl⟩⟩
          · exact ⟨0, c, ' ', by simp, hhead ' ' hb, Or.inr ⟨hc, Or.inr rfl⟩⟩
        · exact hrec h
      · exact hrec h

/-! ## The claims -/

/-- The sample registry reports, for every command it resolves, the name the
command was looked up by. -/
theorem sample_registry_name (name : List Char) (c : command)
    (h : sample_registry name = some c) : c.name = name := by
  unfold sample_registry at h
  split at h
  · simp only [Option.some.injEq] at h
    rw [← h]
  · simp at h

/-- C1, evaluated on the code: `foo` is a canonical line and `go 1;tp 2 3`
is one too, and the registry reports the names it is asked for, yet
`deserialize` of the buffer built from `foo` is `foo` followed by a space,
and that of the buffer built from `go 1;tp 2 3` repeats each command name:
the round trip does not give the line back. -/
theorem deserialize_round_trip_broken :
    clean_buffer "foo".toList = "foo".toList ∧
    clean_buffer "go 1;tp 2 3".toList = "go 1;tp 2 3".toList ∧
    (serialized_buffer.serialized_buffer sample_registry "foo".toList).deserialize
      = "foo ".toList ∧
    (serialized_buffer.serialized_buffer sample_registry "go 1;tp 2 3".toList).deserialize
      = "go go 1;tp tp 2 3".toList ∧
    (serialized_buffer.serialized_buffer (fun _ => none) "foo".toList).deserialize
      = "foo ".toList ∧
    (∀ (name : List Char) (c : command), sample_registry name = some c → c.name = name) := by
  refine ⟨by decide, by decide, by decide, by decide, by decide, sample_registry_name⟩

/-- C2: `clean_buffer` is idempotent: cleaning a cleaned line gives the
cleaned line again, for every input. -/
theorem clean_buffer_idempotent (s : List Char) :
    clean_buffer (clean_buffer s) = clean_buffer s :=
  clean_buffer_fixed (clean_buffer s) (clean_buffer_chain s) (clean_buffer_head s)
    (clean_buffer_last s)

/-- C3: for every input, the cleaned line has no two consecutive spaces, no
space right after a semicolon, neither begins nor ends with a space, and is
empty when the input has no character other than spaces. -/
theorem clean_buffer_canonical (s : List Char) :
    (∀ i : Nat, ¬ ((clean_buffer s)[i]? = some ' ' ∧ (clean_buffer s)[i + 1]? = some ' ')) ∧
    (∀ i : Nat, ¬ ((clean_buffer s)[i]? = some ';' ∧ (clean_buffer s)[i + 1]? = some ' ')) ∧
    (clean_buffer s).head? ≠ some ' ' ∧
    (clean_buffer s).getLast? ≠ some ' ' ∧
    ((∀ c ∈ s, c = ' ') → clean_buffer s = []) := by
  refine ⟨?_, ?_, clean_buffer_head s, clean_buffer_last s, clean_buffer_blank s⟩
  · rintro i ⟨h1, h2⟩
    exact (chain_adjacent _ (clean_buffer_chain s) i ' ' ' ' h1 h2 rfl).1 rfl
  · rintro i ⟨h1, h2⟩
    exact (chain_adjacent _ (clean_buffer_chain s) i ';' ' ' h1 h2 rfl).2 rfl

/-- C4, evaluated on the code: the constructor parses the text as passed
in, not its cleaned form. The line `foo  bar` with two spaces cleans to
`foo bar`, yet the model built from it has three tokens, an empty one at
`[4,4)` among them, and `bar` at `[5,8)`, where the model built from
`foo bar` has two tokens and `bar` at `[4,7)`. -/
theorem constructor_parses_raw_text :
    clean_buffer "foo  bar".toList = "foo bar".toList ∧
    (serialized_buffer.serialized_buffer sample_registry "foo  bar".toList).command_scopes.map
        (fun s => (s.argument_count, s.end_index,
          s.arguments.map (fun a => (a.name, a.start_index, a.end_index))))
      = [(2, 8, [("foo".toList, 0, 3), ([], 4, 4), ("bar".toList, 5, 8)])] ∧
    (serialized_buffer.serialized_buffer sample_registry "foo bar".toList).command_scopes.map
        (fun s => (s.argument_count, s.end_index,
          s.arguments.map (fun a => (a.name, a.start_index, a.end_index))))
      = [(1, 7, [("foo".toList, 0, 3), ("bar".toList, 4, 7)])] ∧
    (serialized_buffer.serialized_buffer sample_registry "foo  bar".toList).command_scopes
      ≠ (serialized_buffer.serialized_buffer sample_registry
          (clean_buffer "foo  bar".toList)).command_scopes := by
  refine ⟨by decide, by decide, by decide, ?_⟩
  decide

/-- C5: for every buffer whose sub-commands each yield at least one word
and whose offsets fit an `int`, every token that `parse_buffer` records is word `j` of sub-command `i`, its
range starts at the position of that word's own occurrence, counted from
the sizes of the sub-commands and words before it, it ends one past the
word's last character inside the buffer, and the characters of the buffer
from `start_index` up to `end_index` are the token's text. -/
theorem parse_buffer_anchored (reg : registry) (buffer : List Char)
    (hlen : buffer.length + 1 < 2 ^ 31)
    (_hwords : ∀ sub ∈ split buffer ';', split sub ' ' ≠ [])
    (i j : Nat) (scope : command_scope) (arg : argument)
    (hs : (parse_buffer reg (initial buffer)).command_scopes[i]? = some scope)
    (ha : scope.arguments[j]? = some arg) :
    (split ((split buffer ';').getD i []) ' ')[j]? = some arg.name ∧
    arg.start_index = (own_offset buffer i j : Int) ∧
    arg.end_index = arg.start_index + (arg.name.length : Int) ∧
    arg.end_index ≤ (buffer.length : Int) ∧
    substr buffer arg.start_index.toNat (arg.end_index - arg.start_index).toNat = arg.name := by
  obtain ⟨sub, hsub, hscope⟩ :=
    parsed_scope_at reg _ buffer (parse_buffer_scopes reg buffer hlen).1 i scope hs
  have harg : scope.arguments
      = words_layout (split sub ' ') 0 (segment_offset (split buffer ';') i) := by
    rw [hscope]
  rw [harg] at ha
  obtain ⟨w, hw, hargv⟩ := parsed_argument_at _ _ j arg ha
  obtain ⟨hoff, hle, _, _, hsubstr⟩ := token_at_own_offset buffer i j sub w hsub hw
  have hname : arg.name = w := by rw [hargv]
  have hstart : arg.start_index = (own_offset buffer i j : Int) := by rw [hargv, hoff]
  have hend : arg.end_index = (own_offset buffer i j : Int) + (w.length : Int) := by
    rw [hargv, hoff]
  refine ⟨?_, hstart, ?_, ?_, ?_⟩
  · rw [hname, List.getD_eq_getElem?_getD, hsub]
    exact hw
  · rw [hend, hstart, hname]
  · rw [hend]
    omega
  · rw [hend, hstart, hname]
    have e1 : ((own_offset buffer i j : Nat) : Int).toNat = own_offset buffer i j := by omega
    have e2 : ((own_offset buffer i j : Int) + (w.length : Int) - (own_offset buffer i j : Int)).toNat
        = w.length := by omega
    rw [e1, e2]
    exact hsubstr

/-- C5 at `tp tp tp`: the three equal words get the ranges `[0,2)`, `[3,5)`
and `[6,8)`, and the theorem applied to the third one. -/
theorem parse_buffer_anchored_witness :
    (parse_buffer sample_registry (initial "tp tp tp".toList)).command_scopes.map
        (fun s => s.arguments.map (fun a => (a.start_index, a.end_index)))
      = [[(0, 2), (3, 5), (6, 8)]] ∧
    ((split ((split "tp tp tp".toList ';').getD 0 []) ' ')[2]? = some "tp".toList ∧
      (6 : Int) = (own_offset "tp tp tp".toList 0 2 : Int) ∧
      (8 : Int) = 6 + ("tp".toList.length : Int) ∧
      (8 : Int) ≤ ("tp tp tp".toList.length : Int) ∧
      substr "tp tp tp".toList (6 : Int).toNat ((8 : Int) - 6).toNat = "tp".toList) :=
  ⟨by decide,
    parse_buffer_anchored sample_registry "tp tp tp".toList (by decide) (by decide) 0 2
      { cmd := some { name := "tp".toList }
        raw := "tp tp tp".toList
        name := "tp".toList
        index := 0
        start_index := 0
        end_index := 8
        argument_count := 2
        arguments :=
          [{ name := "tp".toList, index := 0, start_index := 0, end_index := 2, is_argument := false },
           { name := "tp".toList, index := 1, start_index := 3, end_index := 5, is_argument := true },
           { name := "tp".toList, index := 2, start_index := 6, end_index := 8, is_argument := true }] }
      { name := "tp".toList, index := 2, start_index := 6, end_index := 8, is_argument := true }
      (by decide) (by decide)⟩

/-- C6: in every parsed model of a line whose offsets fit an `int`, for
consecutive scopes `i` and `i + 1`, the
next scope starts exactly one position after the end of the current one, so
the end of one is at most the start of the next. -/
theorem parsed_scopes_monotone (reg : registry) (raw : List Char)
    (hlen : raw.length + 1 < 2 ^ 31) (i : Nat) (s t : command_scope)
    (hs : (serialized_buffer.serialized_buffer reg raw).command_scopes[i]? = some s)
    (ht : (serialized_buffer.serialized_buffer reg raw).command_scopes[i + 1]? = some t) :
    t.start_index = s.end_index + 1 ∧ s.end_index ≤ t.start_index := by
  have hc := (constructor_scopes reg raw hlen).1
  by_cases hraw : raw = []
  · rw [hc, if_pos hraw] at hs
    simp at hs
  · rw [if_neg hraw] at hc
    obtain ⟨sub, hsub, hsv⟩ := parsed_scope_at reg _ raw hc i s hs
    obtain ⟨sub2, _, htv⟩ := parsed_scope_at reg _ raw hc (i + 1) t ht
    have hstep := segment_offset_step (split raw ';') i sub hsub
    have h1 : t.start_index = ((segment_offset (split raw ';') (i + 1) : Nat) : Int) := by rw [htv]
    have h2 : s.end_index = ((segment_offset (split raw ';') i + sub.length : Nat) : Int) := by
      rw [hsv]
    rw [h1, h2, hstep]
    constructor
    · push_cast; ring
    · push_cast; omega

/-- C6 at `go 1;tp 2 3`: the first scope ends at 4 and the second starts
at 5. -/
theorem parsed_scopes_monotone_witness :
    (serialized_buffer.serialized_buffer sample_registry "go 1;tp 2 3".toList).command_scopes.map
        (fun s => (s.start_index, s.end_index)) = [(0, 4), (5, 11)] ∧
    ((5 : Int) = 4 + 1 ∧ (4 : Int) ≤ 5) :=
  ⟨by decide,
    parsed_scopes_monotone sample_registry "go 1;tp 2 3".toList (by decide) 0
      { cmd := some { name := "go".toList }
        raw := "go 1".toList
        name := "go".toList
        index := 0
        start_index := 0
        end_index := 4
        argument_count := 1
        arguments :=
          [{ name := "go".toList, index := 0, start_index := 0, end_index := 2, is_argument := false },
           { name := "1".toList, index := 1, start_index := 3, end_index := 4, is_argument := true }] }
      { cmd := some { name := "tp".toList }
        raw := "tp 2 3".toList
        name := "tp".toList
        index := 1
        start_index := 5
        end_index := 11
        argument_count := 2
        arguments :=
          [{ name := "tp".toList, index := 0, start_index := 5, end_index := 7, is_argument := false },
           { name := "2".toList, index := 1, start_index := 8, end_index := 9, is_argument := true },
           { name := "3".toList, index := 2, start_index := 10, end_index := 11, is_argument := true }] }
      (by decide) (by decide)⟩

/-- C7, refuted as stated: in `foo bar; baz` position 7 holds the `;`
between the two scopes, and `get_command_scope` returns the `foo` scope
there, not none. -/
theorem get_command_scope_on_delimiter :
    "foo bar; baz".toList[7]? = some ';' ∧
    (serialized_buffer.serialized_buffer sample_registry "foo bar; baz".toList).command_scopes.length
      = 2 ∧
    (serialized_buffer.serialized_buffer sample_registry "foo bar; baz".toList).get_command_scope 7
      ≠ none ∧
    ((serialized_buffer.serialized_buffer sample_registry
        "foo bar; baz".toList).get_command_scope 7).map (fun s => (s.name, s.start_index, s.end_index))
      = some ("foo".toList, 0, 7) := by
  refine ⟨by decide, by decide, by decide, by decide⟩

/-- C7, amended: on a parsed model of a line whose offsets fit an `int`,
`get_command_scope pos` returns a scope
exactly when that scope's range holds `pos`, both ends included, and none
exactly when no scope's range does; the index of a `;` between two scopes
is the `end_index` of the scope before it, so there the scope before the
delimiter is returned. -/
theorem get_command_scope_inclusive (reg : registry) (raw : List Char)
    (hlen : raw.length + 1 < 2 ^ 31) (pos : Int) (p : Nat) :
    (∀ scope, (serialized_buffer.serialized_buffer reg raw).get_command_scope pos = some scope ↔
      (scope ∈ (serialized_buffer.serialized_buffer reg raw).command_scopes ∧
        scope.start_index ≤ pos ∧ pos ≤ scope.end_index)) ∧
    ((serialized_buffer.serialized_buffer reg raw).get_command_scope pos = none ↔
      ∀ scope ∈ (serialized_buffer.serialized_buffer reg raw).command_scopes,
        ¬ (scope.start_index ≤ pos ∧ pos ≤ scope.end_index)) ∧
    (raw[p]? = some ';' → ∃ i s t,
      (serialized_buffer.serialized_buffer reg raw).command_scopes[i]? = some s ∧
      (serialized_buffer.serialized_buffer reg raw).command_scopes[i + 1]? = some t ∧
      s.end_index = (p : Int) ∧
      (serialized_buffer.serialized_buffer reg raw).get_command_scope (p : Int) = some s) := by
  refine ⟨fun scope => get_command_scope_iff reg raw hlen pos scope, ?_, ?_⟩
  · unfold get_command_scope
    rw [List.find?_eq_none]
    simp only [in_scope, Bool.and_eq_true, decide_eq_true_eq, ge_iff_le]
  · intro hp
    have hc := (constructor_scopes reg raw hlen).1
    have hraw : raw ≠ [] := by
      intro h
      rw [h] at hp
      simp at hp
    rw [if_neg hraw] at hc
    have hj : (join_with ';' (split raw ';'))[p]? = some ';' := by rw [join_split]; exact hp
    obtain ⟨i, w, hw, hi, hpv⟩ :=
      join_with_delim_at ';' (split raw ';') (split_no_delim ';' raw) p hj
    have h1 := scopes_layout_getElem reg (split raw ';') 0 0 i w hw
    have h2 := scopes_layout_getElem reg (split raw ';') 0 0 (i + 1) _ (List.getElem?_eq_getElem hi)
    rw [← hc] at h1 h2
    refine ⟨i, _, _, h1, h2, ?_, ?_⟩
    · simp only [Nat.zero_add]
      rw [hpv]
    · rw [get_command_scope_iff reg raw hlen]
      refine ⟨List.mem_iff_getElem?.mpr ⟨i, h1⟩, ?_, ?_⟩
      · simp only [Nat.zero_add]
        omega
      · simp only [Nat.zero_add]
        rw [hpv]

/-- C7, amended, at `foo bar; baz`: the position of the space right after
`foo` and the position of the `;` both give the `foo` scope, and the general
statement applied to them. -/
theorem get_command_scope_inclusive_witness :
    ((serialized_buffer.serialized_buffer sample_registry
        "foo bar; baz".toList).get_command_scope 3).map (fun s => (s.name, s.start_index, s.end_index))
      = some ("foo".toList, 0, 7) ∧
    ((serialized_buffer.serialized_buffer sample_registry
        "foo bar; baz".toList).get_command_scope 7).map (fun s => (s.name, s.start_index, s.end_index))
      = some ("foo".toList, 0, 7) ∧
    ("foo bar; baz".toList[7]? = some ';' → ∃ i s t,
      (serialized_buffer.serialized_buffer sample_registry
        "foo bar; baz".toList).command_scopes[i]? = some s ∧
      (serialized_buffer.serialized_buffer sample_registry
        "foo bar; baz".toList).command_scopes[i + 1]? = some t ∧
      s.end_index = ((7 : Nat) : Int) ∧
      (serialized_buffer.serialized_buffer sample_registry
        "foo bar; baz".toList).get_command_scope ((7 : Nat) : Int) = some s) :=
  ⟨by decide, by decide,
    (get_command_scope_inclusive sample_registry "foo bar; baz".toList (by decide) 3 7).2.2⟩

/-- C8, evaluated on the code: in `give weapon 5` the tokens are `give` at
`[0,4)`, `weapon` at `[5,11)` and `5` at `[12,13)`;
`get_argument_index_from_char_index` gives 1 inside `give`, 2 inside
`weapon` and -1 inside `5`, where the ordinals are -1, 1 and 2. -/
theorem argument_index_off_by_one :
    (serialized_buffer.serialized_buffer sample_registry "give weapon 5".toList).command_scopes.map
        (fun s => (s.argument_count,
          s.arguments.map (fun a => (a.name, a.index, a.start_index, a.end_index))))
      = [(2, [("give".toList, 0, 0, 4), ("weapon".toList, 1, 5, 11), ("5".toList, 2, 12, 13)])] ∧
    [0, 5, 12].map (get_argument_index_from_char_index
        (serialized_buffer.serialized_buffer sample_registry "give weapon 5".toList))
      = [1, 2, -1] := by
  refine ⟨by decide, by decide⟩

/-- C9: on a parsed model, with the line and the new name short enough for
every offset to fit an `int`, renaming the command of the scope found at
`pos` to `n`, with `delta` the size of `n` minus the size of the old name, leaves
the scopes before that scope unchanged, leaves that scope's `start_index`
unchanged and adds `delta` to its `end_index` and to the start and the end
of each of its arguments of ordinal at least 1, and adds `delta` to the
`start_index` and `end_index` of every later scope; the `size_t`
difference acts as the signed one. -/
theorem update_command_of_scope_shift (reg : registry) (raw n : List Char) (pos : Int)
    (sc : command_scope) (hlen : raw.length + n.length + 1 < 2 ^ 31)
    (hsc : (serialized_buffer.serialized_buffer reg raw).get_command_scope pos = some sc) :
    (update_command_of_scope reg (serialized_buffer.serialized_buffer reg raw) pos n).command_scopes.length
      = (serialized_buffer.serialized_buffer reg raw).command_scopes.length ∧
    ∀ (i : Nat) (s s' : command_scope),
      (serialized_buffer.serialized_buffer reg raw).command_scopes[i]? = some s →
      (update_command_of_scope reg (serialized_buffer.serialized_buffer reg raw) pos
        n).command_scopes[i]? = some s' →
      (s.index < sc.index → s' = s) ∧
      (s.index = sc.index →
        s'.start_index = s.start_index ∧
        s'.end_index = s.end_index + ((n.length : Int) - (sc.name.length : Int)) ∧
        s'.arguments.length = s.arguments.length ∧
        ∀ (j : Nat) (a a' : argument),
          s.arguments[j]? = some a → s'.arguments[j]? = some a' → 1 ≤ a.index →
          a'.start_index = a.start_index + ((n.length : Int) - (sc.name.length : Int)) ∧
          a'.end_index = a.end_index + ((n.length : Int) - (sc.name.length : Int))) ∧
      (sc.index < s.index →
        s'.start_index = s.start_index + ((n.length : Int) - (sc.name.length : Int)) ∧
        s'.end_index = s.end_index + ((n.length : Int) - (sc.name.length : Int))) := by
  have hlen1 : raw.length + 1 < 2 ^ 31 := by omega
  obtain ⟨hc, hcc⟩ := constructor_scopes reg raw hlen1
  have hraw : raw ≠ [] := by
    intro h
    unfold get_command_scope at hsc
    rw [hc, if_pos h] at hsc
    simp at hsc
  rw [if_neg hraw] at hc hcc
  have hfind := hsc
  unfold get_command_scope at hfind
  obtain ⟨_, front, back, hL, hfront⟩ := List.find?_eq_some.mp hfind
  have hk : (serialized_buffer.serialized_buffer reg raw).command_scopes[front.length]? = some sc := by
    rw [hL, List.getElem?_append_right (le_refl _)]
    simp
  obtain ⟨hscidx, _, _, _, hscname, _⟩ := parsed_scope_bounds reg _ raw hc front.length sc hk
  have hcount : (serialized_buffer.serialized_buffer reg raw).command_count
      = (((serialized_buffer.serialized_buffer reg raw).command_scopes.length : Nat) : Int) := by
    rw [hcc, hc, scopes_layout_length]
  have hshift : ∀ x : Int, 0 ≤ x → x ≤ (raw.length : Int) →
      add_assign x (size_sub n.length sc.name.length)
        = x + ((n.length : Int) - (sc.name.length : Int)) := by
    intro x hx1 hx2
    exact add_assign_size_sub x n.length sc.name.length (by omega) (by omega) (by omega) (by omega)
      (by omega) (by omega)
  constructor
  · simp only [update_command_of_scope, hsc]
    rw [scopes_loop_length]
    rw [hL, update_found_append _ _ front sc back hfront (List.find?_some hfind)]
    simp
  · intro i s s' hs hs'
    have hpt := update_command_scopes_getElem reg _ pos n sc front back hsc hL hfront i
    rw [hs, hs'] at hpt
    simp only [Option.map_some', Option.some.injEq] at hpt
    obtain ⟨hsidx, hs0, hs1, hs2, _, hsargs⟩ := parsed_scope_bounds reg _ raw hc i s hs
    have hilt : i < (serialized_buffer.serialized_buffer reg raw).command_scopes.length := by
      rcases List.getElem?_eq_some.mp hs with ⟨h, _⟩
      exact h
    rw [hscidx, hcount] at hpt
    rw [hsidx, hscidx]
    refine ⟨?_, ?_, ?_⟩
    · intro hlt
      have h1 : ¬ (((front.length : Nat) : Int) ≤ (i : Int) ∧
          (i : Int) < (((serialized_buffer.serialized_buffer reg raw).command_scopes.length : Nat) : Int)) := by
        omega
      have h2 : i ≠ front.length := by omega
      rw [if_neg h1, if_neg h2] at hpt
      exact hpt
    · intro heq
      have hik : i = front.length := by omega
      have h1 : (((front.length : Nat) : Int) ≤ (i : Int) ∧
          (i : Int) < (((serialized_buffer.serialized_buffer reg raw).command_scopes.length : Nat) : Int)) := by
        omega
      rw [if_pos h1, if_pos hik] at hpt
      have hst : s'.start_index = s.start_index := by
        rw [hpt]
        simp [shift_scope, hsidx, hik]
      have hen : s'.end_index
          = add_assign s.end_index (size_sub n.length sc.name.length) := by
        rw [hpt]
        rfl
      have har : s'.arguments = s.arguments.map (fun argument =>
          { argument with
            start_index := add_assign argument.start_index (size_sub n.length sc.name.length)
            end_index := add_assign argument.end_index (size_sub n.length sc.name.length) }) := by
        rw [hpt]
        rfl
      refine ⟨hst, by rw [hen]; exact hshift _ (by omega) hs2, by rw [har, List.length_map], ?_⟩
      intro j a a' ha ha' _
      rw [har, List.getElem?_map, ha] at ha'
      simp only [Option.map_some', Option.some.injEq] at ha'
      have hmem : a ∈ s.arguments := List.mem_iff_getElem?.mpr ⟨j, ha⟩
      obtain ⟨ha0, ha1, ha2⟩ := hsargs a hmem
      rw [← ha']
      exact ⟨hshift _ ha0 (by omega), hshift _ (by omega) ha2⟩
    · intro hgt
      have hne : i ≠ front.length := by omega
      have h1 : (((front.length : Nat) : Int) ≤ (i : Int) ∧
          (i : Int) < (((serialized_buffer.serialized_buffer reg raw).command_scopes.length : Nat) : Int)) := by
        omega
      have hne2 : ¬ ((i : Int) = ((front.length : Nat) : Int)) := by omega
      rw [if_pos h1, if_neg hne] at hpt
      have hst : s'.start_index
          = add_assign s.start_index (size_sub n.length sc.name.length) := by
        rw [hpt]
        simp [shift_scope, hsidx, hne2]
      have hen : s'.end_index
          = add_assign s.end_index (size_sub n.length sc.name.length) := by
        rw [hpt]
        rfl
      rw [hst, hen]
      exact ⟨hshift _ hs0 (by omega), hshift _ (by omega) hs2⟩

/-- C9 at `teleport 1;tp 2 3`, renamed to `go` at position 0, a negative
`delta` of -6: the scopes `[0,10]` and `[11,17]` become `[0,4]` and
`[5,11]`, the argument `1` moves from `[9,10)` to `[3,4)`, and the theorem
applied to this rename. -/
theorem update_command_of_scope_shift_witness :
    (serialized_buffer.serialized_buffer sample_registry "teleport 1;tp 2 3".toList).command_scopes.map
        (fun s => (s.start_index, s.end_index, s.arguments.map (fun a => (a.start_index, a.end_index))))
      = [(0, 10, [(0, 8), (9, 10)]), (11, 17, [(11, 13), (14, 15), (16, 17)])] ∧
    (update_command_of_scope sample_registry
        (serialized_buffer.serialized_buffer sample_registry "teleport 1;tp 2 3".toList) 0
        "go".toList).command_scopes.map
        (fun s => (s.start_index, s.end_index, s.arguments.map (fun a => (a.start_index, a.end_index))))
      = [(0, 4, [(-6, 2), (3, 4)]), (5, 11, [(5, 7), (8, 9), (10, 11)])] ∧
    ((update_command_of_scope sample_registry
        (serialized_buffer.serialized_buffer sample_registry "teleport 1;tp 2 3".toList) 0
        "go".toList).command_scopes.length
      = (serialized_buffer.serialized_buffer sample_registry
          "teleport 1;tp 2 3".toList).command_scopes.length) :=
  ⟨by decide, by decide,
    (update_command_of_scope_shift sample_registry "teleport 1;tp 2 3".toList "go".toList 0
      { cmd := some { name := "teleport".toList }
        raw := "teleport 1".toList
        name := "teleport".toList
        index := 0
        start_index := 0
        end_index := 10
        argument_count := 1
        arguments :=
          [{ name := "teleport".toList, index := 0, start_index := 0, end_index := 8,
             is_argument := false },
           { name := "1".toList, index := 1, start_index := 9, end_index := 10,
             is_argument := true }] }
      (by decide) (by decide)).1⟩

/-- C10, refuted as stated: renaming `go` to `teleport` at position 0 of
`go 1;tp 2 3` moves the second scope's `start_index` from 5 to 11, an
increase of 6 and not of 5, and the text that `deserialize` then gives is
not `teleport 1;tp 2 3`. -/
theorem rename_go_teleport_not_five :
    ¬ ((update_command_of_scope sample_registry
          (serialized_buffer.serialized_buffer sample_registry "go 1;tp 2 3".toList) 0
          "teleport".toList).deserialize = "teleport 1;tp 2 3".toList ∧
      (update_command_of_scope sample_registry
          (serialized_buffer.serialized_buffer sample_registry "go 1;tp 2 3".toList) 0
          "teleport".toList).command_scopes.map (fun s => s.start_index)
        = (serialized_buffer.serialized_buffer sample_registry "go 1;tp 2 3".toList).command_scopes.map
            (fun s => if s.index = 1 then s.start_index + 5 else s.start_index)) := by
  decide

/-- C10, amended: for `go 1;tp 2 3` and every position inside the first
scope, renaming the command there to `teleport` increases the second
scope's `start_index` by exactly 6, the size of `teleport` minus the size
of `go`: from 5 to 11. -/
theorem rename_go_teleport_shift (pos : Int) (h0 : 0 ≤ pos) (h1 : pos ≤ 4) :
    (serialized_buffer.serialized_buffer sample_registry "go 1;tp 2 3".toList).command_scopes.map
        (fun s => s.start_index) = [0, 5] ∧
    (update_command_of_scope sample_registry
        (serialized_buffer.serialized_buffer sample_registry "go 1;tp 2 3".toList) pos
        "teleport".toList).command_scopes.map (fun s => s.start_index) = [0, 5 + 6] ∧
    (("teleport".toList.length : Int) - ("go".toList.length : Int)) = 6 := by
  interval_cases pos <;> exact ⟨by decide, by decide, by decide⟩

/-- C10, amended, at position 2, inside the first scope. -/
theorem rename_go_teleport_shift_witness :
    (update_command_of_scope sample_registry
        (serialized_buffer.serialized_buffer sample_registry "go 1;tp 2 3".toList) 2
        "teleport".toList).command_scopes.map (fun s => s.start_index) = [0, 5 + 6] :=
  (rename_go_teleport_shift 2 (by decide) (by decide)).2.1

/-- C11: on a parsed single-scope line, with the line and the new text
short enough for every offset to fit an `int`, renaming the last argument
through `update_argument_of_scope` leaves the scope's start, the range of
the command name and the ranges of all earlier arguments as they were,
leaves the start of the renamed argument as it was, and moves the scope's
`end_index` and the renamed argument's `end_index` by the size of the new
text minus the size of the old one. -/
theorem update_argument_of_scope_local (reg : registry) (raw n : List Char) (pos ord : Int)
    (sc : command_scope) (arg : argument) (hlen : raw.length + n.length + 1 < 2 ^ 31)
    (hsingle : (serialized_buffer.serialized_buffer reg raw).command_scopes.length = 1)
    (hsc : (serialized_buffer.serialized_buffer reg raw).get_command_scope pos = some sc)
    (harg : sc.get_argument pos = some arg)
    (hord : 1 ≤ arg.index) (hlast : ∀ a ∈ sc.arguments, a.index ≤ arg.index) :
    ∃ sc', (update_argument_of_scope (serialized_buffer.serialized_buffer reg raw) pos ord
        n).command_scopes = [sc'] ∧
      sc'.start_index = sc.start_index ∧
      sc'.end_index = sc.end_index + ((n.length : Int) - (arg.name.length : Int)) ∧
      sc'.arguments.length = sc.arguments.length ∧
      ∀ (j : Nat) (a a' : argument), sc.arguments[j]? = some a → sc'.arguments[j]? = some a' →
        a'.start_index = a.start_index ∧
        (a.index = 0 → a'.end_index = a.end_index) ∧
        (a.index < arg.index → a'.end_index = a.end_index) ∧
        (a.index = arg.index →
          a'.end_index = a.end_index + ((n.length : Int) - (arg.name.length : Int))) ∧
        (a.index < arg.index ∨ a.index = arg.index) := by
  obtain ⟨hl, hd⟩ := update_argument_described reg raw n pos ord sc arg hlen hsc harg
  rw [hsingle] at hl
  have hmem : sc ∈ (serialized_buffer.serialized_buffer reg raw).command_scopes := by
    unfold get_command_scope at hsc
    exact List.mem_of_find?_eq_some hsc
  obtain ⟨i, hi⟩ := List.mem_iff_getElem?.mp hmem
  have hi0 : i = 0 := by
    rcases List.getElem?_eq_some.mp hi with ⟨h, _⟩
    omega
  subst hi0
  obtain ⟨sc', hnew⟩ : ∃ sc', (update_argument_of_scope (serialized_buffer.serialized_buffer reg raw)
      pos ord n).command_scopes = [sc'] := List.length_eq_one.mp hl
  have hnew0 : (update_argument_of_scope (serialized_buffer.serialized_buffer reg raw) pos ord
      n).command_scopes[0]? = some sc' := by rw [hnew]; simp
  obtain ⟨_, hst, hen, hal, _, hargs⟩ := hd 0 sc sc' hi hnew0
  rw [if_pos rfl] at hen
  refine ⟨sc', hnew, hst, hen, hal, ?_⟩
  intro j a a' ha ha'
  obtain ⟨_, e2, e3⟩ := hargs (le_refl _) j a a' ha ha'
  have hle := hlast a (List.mem_iff_getElem?.mpr ⟨j, ha⟩)
  refine ⟨e2, ?_, ?_, ?_, by omega⟩
  · intro h0
    rw [e3, if_neg (by omega)]
  · intro hlt
    rw [e3, if_neg (by omega)]
  · intro heq
    rw [e3, if_pos heq]

/-- C11 at `give weapon 5`, the `5` at position 12 renamed to `50`: the
scope goes from `[0,13]` to `[0,14]`, the argument from `[12,13)` to
`[12,14)`, and `give` and `weapon` keep `[0,4)` and `[5,11)`. -/
theorem update_argument_of_scope_local_witness :
    (serialized_buffer.serialized_buffer sample_registry "give weapon 5".toList).command_scopes.map
        (fun s => (s.start_index, s.end_index,
          s.arguments.map (fun a => (a.name, a.start_index, a.end_index))))
      = [(0, 13, [("give".toList, 0, 4), ("weapon".toList, 5, 11), ("5".toList, 12, 13)])] ∧
    (update_argument_of_scope
        (serialized_buffer.serialized_buffer sample_registry "give weapon 5".toList) 12 2
        "50".toList).command_scopes.map
        (fun s => (s.start_index, s.end_index,
          s.arguments.map (fun a => (a.name, a.start_index, a.end_index))))
      = [(0, 14, [("give".toList, 0, 4), ("weapon".toList, 5, 11), ("50".toList, 12, 14)])] ∧
    (∃ sc', (update_argument_of_scope
        (serialized_buffer.serialized_buffer sample_registry "give weapon 5".toList) 12 2
        "50".toList).command_scopes = [sc'] ∧
      sc'.start_index = 0 ∧ sc'.end_index = 13 + 1 ∧ sc'.arguments.length = 3) := by
  refine ⟨by decide, by decide, ?_⟩
  obtain ⟨sc', h1, h2, h3, h4, _⟩ :=
    update_argument_of_scope_local sample_registry "give weapon 5".toList "50".toList 12 2
      { cmd := some { name := "give".toList }
        raw := "give weapon 5".toList
        name := "give".toList
        index := 0
        start_index := 0
        end_index := 13
        argument_count := 2
        arguments :=
          [{ name := "give".toList, index := 0, start_index := 0, end_index := 4,
             is_argument := false },
           { name := "weapon".toList, index := 1, start_index := 5, end_index := 11,
             is_argument := true },
           { name := "5".toList, index := 2, start_index := 12, end_index := 13,
             is_argument := true }] }
      { name := "5".toList, index := 2, start_index := 12, end_index := 13, is_argument := true }
      (by decide) (by decide) (by decide) (by decide) (by decide) (by decide)
  exact ⟨sc', h1, h2, h3, h4⟩

/-- C12, evaluated on the code: in `go 1;tp 2 3`, renaming the argument `1`
of the first scope to `100` at position 3 moves the `end_index` of the
argument `2` of the second scope from 9 to 11, past the end of the line:
the loop shifts every argument of the same ordinal in the later scopes
too. -/
theorem update_argument_touches_later_scope :
    (serialized_buffer.serialized_buffer sample_registry "go 1;tp 2 3".toList).command_scopes.map
        (fun s => (s.start_index, s.end_index,
          s.arguments.map (fun a => (a.name, a.start_index, a.end_index))))
      = [(0, 4, [("go".toList, 0, 2), ("1".toList, 3, 4)]),
         (5, 11, [("tp".toList, 5, 7), ("2".toList, 8, 9), ("3".toList, 10, 11)])] ∧
    (update_argument_of_scope
        (serialized_buffer.serialized_buffer sample_registry "go 1;tp 2 3".toList) 3 1
        "100".toList).command_scopes.map
        (fun s => (s.start_index, s.end_index,
          s.arguments.map (fun a => (a.name, a.start_index, a.end_index))))
      = [(0, 6, [("go".toList, 0, 2), ("100".toList, 3, 6)]),
         (5, 11, [("tp".toList, 5, 7), ("2".toList, 8, 11), ("3".toList, 10, 11)])] := by
  refine ⟨by decide, by decide⟩

/-- C13, evaluated on the code: in `give weapon 5`, renaming `weapon`, the
argument of ordinal 1, to `weaponry` at position 5, a delta of 2, moves the
scope's end from 13 to 15 and the end of `weapon` from 11 to 13, but the
argument `5`, of ordinal 2, stays at `[12,13)`: the loop tests the ordinal
with `==`. A parse of `give weaponry 5` has `5` at `[14,15)`, and on the
renamed model `is_current_index_argument` at 14 finds the scope and then no
token of it. -/
theorem update_argument_later_ordinal_unmoved :
    (serialized_buffer.serialized_buffer sample_registry "give weapon 5".toList).command_scopes.map
        (fun s => (s.start_index, s.end_index,
          s.arguments.map (fun a => (a.index, a.start_index, a.end_index))))
      = [(0, 13, [(0, 0, 4), (1, 5, 11), (2, 12, 13)])] ∧
    (update_argument_of_scope
        (serialized_buffer.serialized_buffer sample_registry "give weapon 5".toList) 5 1
        "weaponry".toList).command_scopes.map
        (fun s => (s.start_index, s.end_index,
          s.arguments.map (fun a => (a.index, a.start_index, a.end_index))))
      = [(0, 15, [(0, 0, 4), (1, 5, 13), (2, 12, 13)])] ∧
    (("weaponry".toList.length : Int) - ("weapon".toList.length : Int)) = 2 ∧
    (serialized_buffer.serialized_buffer sample_registry "give weaponry 5".toList).command_scopes.map
        (fun s => (s.start_index, s.end_index,
          s.arguments.map (fun a => (a.index, a.start_index, a.end_index))))
      = [(0, 15, [(0, 0, 4), (1, 5, 13), (2, 14, 15)])] ∧
    ((update_argument_of_scope
        (serialized_buffer.serialized_buffer sample_registry "give weapon 5".toList) 5 1
        "weaponry".toList).get_command_scope 14).map (fun s => (s.start_index, s.end_index))
      = some (0, 15) ∧
    is_current_index_argument
        (update_argument_of_scope
          (serialized_buffer.serialized_buffer sample_registry "give weapon 5".toList) 5 1
          "weaponry".toList) 14 = none := by
  refine ⟨by decide, by decide, by decide, by decide, by decide, by decide⟩

/-- C14, evaluated on the code: `give weapon 5` is a canonical line; after
`update_argument_of_scope` renames `weapon` to `weaponry` at position 5 the
token `weaponry` has the range `[5,13)` and the token `5` after it the range
`[12,13)`, so the two overlap. And `go 100;tp 2 3` is canonical; after `100`
is renamed to `1` at position 3 the token `2` of the second scope starts at
10 and ends at 9. -/
theorem update_argument_breaks_token_order :
    clean_buffer "give weapon 5".toList = "give weapon 5".toList ∧
    (update_argument_of_scope
        (serialized_buffer.serialized_buffer sample_registry "give weapon 5".toList) 5 1
        "weaponry".toList).command_scopes.map
        (fun s => s.arguments.map (fun a => (a.start_index, a.end_index)))
      = [[(0, 4), (5, 13), (12, 13)]] ∧
    (∃ s ∈ (update_argument_of_scope
        (serialized_buffer.serialized_buffer sample_registry "give weapon 5".toList) 5 1
        "weaponry".toList).command_scopes, ¬ tokens_ordered s.arguments) ∧
    clean_buffer "go 100;tp 2 3".toList = "go 100;tp 2 3".toList ∧
    (update_argument_of_scope
        (serialized_buffer.serialized_buffer sample_registry "go 100;tp 2 3".toList) 3 1
        "1".toList).command_scopes.map
        (fun s => s.arguments.map (fun a => (a.start_index, a.end_index)))
      = [[(0, 2), (3, 4)], [(7, 9), (10, 9), (12, 13)]] := by
  refine ⟨by decide, by decide, ?_, by decide, by decide⟩
  refine ⟨{ cmd := some { name := "give".toList }
            raw := "give weapon 5".toList
            name := "give".toList
            index := 0
            start_index := 0
            end_index := 15
            argument_count := 2
            arguments :=
              [{ name := "give".toList, index := 0, start_index := 0, end_index := 4,
                 is_argument := false },
               { name := "weaponry".toList, index := 1, start_index := 5, end_index := 13,
                 is_argument := true },
               { name := "5".toList, index := 2, start_index := 12, end_index := 13,
                 is_argument := true }] }, by decide, ?_⟩
  intro h
  have h2 := h.2 1 2
    { name := "weaponry".toList, index := 1, start_index := 5, end_index := 13, is_argument := true }
    { name := "5".toList, index := 2, start_index := 12, end_index := 13, is_argument := true }
    (by decide) (by decide) (by decide)
  exact absurd h2 (by decide)

/-- C15: when no scope holds `pos`, `update_command_of_scope` returns the
model as it was, and when no scope holds `pos` or the scope that does has no
argument holding `pos`, `update_argument_of_scope` returns the model as it
was: buffer text, scopes and arguments. -/
theorem update_not_found_noop (reg : registry) (self : big.serialized_buffer) (pos ord : Int)
    (n : List Char)
    (h : self.get_command_scope pos = none ∨
      ∃ scope, self.get_command_scope pos = some scope ∧ scope.get_argument pos = none) :
    (self.get_command_scope pos = none → update_command_of_scope reg self pos n = self) ∧
    update_argument_of_scope self pos ord n = self := by
  constructor
  · intro hnone
    simp only [update_command_of_scope, hnone]
  · rcases h with hnone | ⟨scope, hsome, harg⟩
    · simp only [update_argument_of_scope, hnone]
    · simp only [update_argument_of_scope, hsome, harg]

/-- C15 at the model of `foo bar` and position 20, where there is no scope,
and at a model whose one scope `[0,5]` has no argument, position 2. -/
theorem update_not_found_noop_witness :
    (update_command_of_scope sample_registry
        (serialized_buffer.serialized_buffer sample_registry "foo bar".toList) 20 "go".toList
      = serialized_buffer.serialized_buffer sample_registry "foo bar".toList) ∧
    (update_argument_of_scope
        (serialized_buffer.serialized_buffer sample_registry "foo bar".toList) 20 1 "go".toList
      = serialized_buffer.serialized_buffer sample_registry "foo bar".toList) ∧
    (bare_scope_model.get_command_scope 2).map (fun s => s.arguments.length) = some 0 ∧
    update_argument_of_scope bare_scope_model 2 1 "go".toList = bare_scope_model :=
  ⟨(update_not_found_noop sample_registry
      (serialized_buffer.serialized_buffer sample_registry "foo bar".toList) 20 1 "go".toList
      (Or.inl (by decide))).1 (by decide),
    (update_not_found_noop sample_registry
      (serialized_buffer.serialized_buffer sample_registry "foo bar".toList) 20 1 "go".toList
      (Or.inl (by decide))).2,
    by decide,
    (update_not_found_noop sample_registry bare_scope_model 2 1 "go".toList
      (Or.inr ⟨_, (by decide : bare_scope_model.get_command_scope 2
        = some (bare_scope_model.command_scopes.headD
            { cmd := none, raw := [], name := [], index := 0, start_index := 0, end_index := 0,
              argument_count := 0, arguments := [] })), by decide⟩)).2⟩

/-- C16, evaluated on the code: `a;;b` gives three scopes, the middle one
with an empty name and `argument_count` 0, but `a; ;b` gives a middle scope
with an empty name and `argument_count` 1, made of two empty words around
the space: the constructor parses the text as passed in, where the cleaned
text would be `a;;b`. -/
theorem malformed_delimiters_parsed :
    (serialized_buffer.serialized_buffer sample_registry "a;;b".toList).command_scopes.map
        (fun s => (s.name, s.argument_count, s.arguments.map (fun a => a.name)))
      = [("a".toList, 0, ["a".toList]), ([], 0, [[]]), ("b".toList, 0, ["b".toList])] ∧
    (serialized_buffer.serialized_buffer sample_registry "a; ;b".toList).command_scopes.map
        (fun s => (s.name, s.argument_count, s.arguments.map (fun a => a.name)))
      = [("a".toList, 0, ["a".toList]), ([], 1, [[], []]), ("b".toList, 0, ["b".toList])] ∧
    clean_buffer "a; ;b".toList = "a;;b".toList := by
  refine ⟨by decide, by decide, by decide⟩

/-- C17: on a parsed model of a line of `L` characters whose offsets fit an
`int`, every scope ends at or before `L`, and for a position below 0 or
above `L`, `get_command_scope` and `get_command_of_index` return none and
`get_argument_index_from_char_index` returns -1. -/
theorem out_of_range_not_found (reg : registry) (raw : List Char)
    (hlen : raw.length + 1 < 2 ^ 31) (pos : Int) (hpos : pos < 0 ∨ (raw.length : Int) < pos) :
    (serialized_buffer.serialized_buffer reg raw).get_command_scope pos = none ∧
    (serialized_buffer.serialized_buffer reg raw).get_command_of_index pos = none ∧
    (serialized_buffer.serialized_buffer reg raw).get_argument_index_from_char_index pos = -1 ∧
    ∀ s ∈ (serialized_buffer.serialized_buffer reg raw).command_scopes,
      s.end_index ≤ (raw.length : Int) := by
  have hc := (constructor_scopes reg raw hlen).1
  have hb : ∀ s ∈ (serialized_buffer.serialized_buffer reg raw).command_scopes,
      0 ≤ s.start_index ∧ s.end_index ≤ (raw.length : Int) := by
    intro s hs
    by_cases hraw : raw = []
    · rw [hc, if_pos hraw] at hs
      simp at hs
    · rw [if_neg hraw] at hc
      obtain ⟨i, hi⟩ := List.mem_iff_getElem?.mp hs
      obtain ⟨_, h0, _, h2, _, _⟩ := parsed_scope_bounds reg _ raw hc i s hi
      exact ⟨h0, h2⟩
  have hnone : (serialized_buffer.serialized_buffer reg raw).get_command_scope pos = none := by
    unfold get_command_scope
    rw [List.find?_eq_none]
    intro s hs
    obtain ⟨h0, h2⟩ := hb s hs
    simp only [in_scope, Bool.and_eq_true, decide_eq_true_eq, ge_iff_le, not_and, not_le]
    intro h1
    omega
  refine ⟨hnone, ?_, ?_, fun s hs => (hb s hs).2⟩
  · simp only [get_command_of_index, hnone]
  · simp only [get_argument_index_from_char_index, hnone]

/-- C17 at the model of `foo bar; baz`, 12 characters long, and the
positions -1 and 13. -/
theorem out_of_range_not_found_witness :
    ((serialized_buffer.serialized_buffer sample_registry "foo bar; baz".toList).get_command_scope
        (-1) = none ∧
      (serialized_buffer.serialized_buffer sample_registry "foo bar; baz".toList).get_command_of_index
        (-1) = none ∧
      (serialized_buffer.serialized_buffer sample_registry
        "foo bar; baz".toList).get_argument_index_from_char_index (-1) = -1 ∧
      ∀ s ∈ (serialized_buffer.serialized_buffer sample_registry "foo bar; baz".toList).command_scopes,
        s.end_index ≤ ("foo bar; baz".toList.length : Int)) ∧
    (serialized_buffer.serialized_buffer sample_registry "foo bar; baz".toList).get_command_scope
        13 = none :=
  ⟨out_of_range_not_found sample_registry "foo bar; baz".toList (by decide) (-1)
      (Or.inl (by decide)),
    (out_of_range_not_found sample_registry "foo bar; baz".toList (by decide) 13
      (Or.inr (by decide))).1⟩

/-- C19: for a history of at most 10 entries, `add_to_last_used_commands`
leaves the history as it is when the command is in it; otherwise the new
history is the command followed by the old one, without its last entry
when it held 10; the size stays at most 10 and a history without
duplicates stays without duplicates. -/
theorem add_to_last_used_commands_spec (h : List (List Char)) (c : List Char)
    (hlen : h.length ≤ 10) :
    (c ∈ h → add_to_last_used_commands h c = h) ∧
    (c ∉ h → add_to_last_used_commands h c
      = c :: (if h.length = 10 then h.dropLast else h)) ∧
    (add_to_last_used_commands h c).length ≤ 10 ∧
    (h.Nodup → (add_to_last_used_commands h c).Nodup) := by
  have hin : c ∈ h → add_to_last_used_commands h c = h := by
    intro hc
    simp [add_to_last_used_commands, does_string_exist_in_list, deque_to_vector, hc]
  have hout : c ∉ h → add_to_last_used_commands h c
      = c :: (if h.length = 10 then h.dropLast else h) := by
    intro hc
    have e : (h.length ≥ 10) ↔ h.length = 10 := by omega
    simp [add_to_last_used_commands, does_string_exist_in_list, deque_to_vector, hc, e]
  refine ⟨hin, hout, ?_, ?_⟩
  · by_cases hc : c ∈ h
    · rw [hin hc]; exact hlen
    · rw [hout hc]
      by_cases h10 : h.length = 10
      · simp only [h10, if_true, List.length_cons, List.length_dropLast]
        omega
      · simp only [h10, if_false, List.length_cons]
        omega
  · intro hnd
    by_cases hc : c ∈ h
    · rw [hin hc]; exact hnd
    · rw [hout hc]
      by_cases h10 : h.length = 10
      · simp only [h10, if_true]
        exact List.nodup_cons.mpr
          ⟨fun hm => hc (List.mem_of_mem_dropLast hm), List.Nodup.sublist (List.dropLast_sublist h) hnd⟩
      · simp only [h10, if_false]
        exact List.nodup_cons.mpr ⟨hc, hnd⟩

/-- C19 at a full history `0` to `9`: the new command `x` comes first and
`9`, the oldest, is dropped; the command `3`, already there, changes
nothing. -/
theorem add_to_last_used_commands_spec_witness :
    add_to_last_used_commands
        ["0".toList, "1".toList, "2".toList, "3".toList, "4".toList, "5".toList, "6".toList,
          "7".toList, "8".toList, "9".toList] "x".toList
      = ["x".toList, "0".toList, "1".toList, "2".toList, "3".toList, "4".toList, "5".toList,
          "6".toList, "7".toList, "8".toList] ∧
    ("3".toList ∈ ["0".toList, "1".toList, "2".toList, "3".toList, "4".toList, "5".toList,
          "6".toList, "7".toList, "8".toList, "9".toList] →
      add_to_last_used_commands
        ["0".toList, "1".toList, "2".toList, "3".toList, "4".toList, "5".toList, "6".toList,
          "7".toList, "8".toList, "9".toList] "3".toList
      = ["0".toList, "1".toList, "2".toList, "3".toList, "4".toList, "5".toList, "6".toList,
          "7".toList, "8".toList, "9".toList]) :=
  ⟨by decide,
    (add_to_last_used_commands_spec
      ["0".toList, "1".toList, "2".toList, "3".toList, "4".toList, "5".toList, "6".toList,
        "7".toList, "8".toList, "9".toList] "3".toList (by decide)).1⟩

/-- C20, evaluated on the code: in the list `a`, `b`, `a` the entry `a` is
first found at position 0, the entry after it is `b`, yet
`get_next_from_list` gives `a`, the front of the list, because the entry
equals the last one; on `a`, `b`, `c` the wrap-around is as claimed. -/
theorem get_next_wraps_early_on_duplicate :
    find_if_position (fun cmd => decide (cmd = "a".toList)) ["a".toList, "b".toList, "a".toList]
      = some 0 ∧
    ["a".toList, "b".toList, "a".toList][(0 + 1) % 3]? = some "b".toList ∧
    get_next_from_list ["a".toList, "b".toList, "a".toList] "a".toList = "a".toList ∧
    get_next_from_list ["a".toList, "b".toList, "c".toList] "a".toList = "b".toList ∧
    get_next_from_list ["a".toList, "b".toList, "c".toList] "c".toList = "a".toList ∧
    get_next_from_list ["a".toList, "b".toList, "c".toList] "z".toList = "a".toList ∧
    get_previous_from_list ["a".toList, "b".toList, "c".toList] "a".toList = "c".toList ∧
    get_previous_from_list ["a".toList, "b".toList, "c".toList] "c".toList = "b".toList ∧
    get_previous_from_list ["a".toList, "b".toList, "c".toList] "z".toList = "c".toList ∧
    get_next_from_list [] "z".toList = "z".toList ∧
    get_previous_from_list [] "z".toList = "z".toList := by
  refine ⟨by decide, by decide, by decide, by decide, by decide, by decide, by decide, by decide,
    by decide, by decide, by decide⟩

/-- C21: on the model built from any line whose offsets fit an `int`, at
every cursor position, the scope that `get_command_scope` finds has a token
that `get_argument` finds there, and `is_current_index_argument` never reads
through a null pointer. -/
theorem is_current_index_argument_safe (reg : registry) (raw : List Char)
    (hlen : raw.length + 1 < 2 ^ 31) (pos : Int) :
    (∀ sc, (serialized_buffer.serialized_buffer reg raw).get_command_scope pos = some sc →
      ∃ arg, sc.get_argument pos = some arg ∧
        (serialized_buffer.serialized_buffer reg raw).is_current_index_argument pos
          = some arg.is_argument) ∧
    (serialized_buffer.serialized_buffer reg raw).is_current_index_argument pos ≠ none := by
  constructor
  · intro sc hsc
    obtain ⟨arg, harg⟩ := parsed_scope_has_argument reg raw hlen pos sc hsc
    exact ⟨arg, harg, by simp only [is_current_index_argument, hsc, harg]⟩
  · cases hsc : (serialized_buffer.serialized_buffer reg raw).get_command_scope pos with
    | none => simp only [is_current_index_argument, hsc, ne_eq, reduceCtorEq, not_false_eq_true]
    | some sc =>
      obtain ⟨arg, harg⟩ := parsed_scope_has_argument reg raw hlen pos sc hsc
      simp only [is_current_index_argument, hsc, harg, ne_eq, reduceCtorEq, not_false_eq_true]

/-- C21 at `go 1;tp 2 3`: `is_current_index_argument` gives false on `go`
and on `tp`, true on `1`, `2` and `3`, false past the end, and the
statement applied to position 4. -/
theorem is_current_index_argument_safe_witness :
    [0, 2, 3, 4, 5, 7, 8, 11, 12, -1].map
        ((serialized_buffer.serialized_buffer sample_registry
          "go 1;tp 2 3".toList).is_current_index_argument)
      = [some false, some false, some true, some true, some false, some false, some true,
          some true, some false, some false] ∧
    (serialized_buffer.serialized_buffer sample_registry
        "go 1;tp 2 3".toList).is_current_index_argument 4 ≠ none :=
  ⟨by decide,
    (is_current_index_argument_safe sample_registry "go 1;tp 2 3".toList (by decide) 4).2⟩

/-- C22, evaluated on the code: in `go 1;tp 2 3` the first scope starts at
0 and its name is `go`. Renaming at position 0 to `teleport` moves the
scopes from `[0,4]`, `[5,11]` to `[0,10]`, `[11,17]` and leaves the stored
name `go`; renaming at position 0 back to `go` then computes a difference
of 0 from the stored name and leaves `[0,10]`, `[11,17]` and every shifted
token where they are. -/
theorem rename_back_does_not_restore :
    (serialized_buffer.serialized_buffer sample_registry "go 1;tp 2 3".toList).command_scopes.map
        (fun s => (s.name, s.start_index, s.end_index))
      = [("go".toList, 0, 4), ("tp".toList, 5, 11)] ∧
    (serialized_buffer.serialized_buffer sample_registry "go 1;tp 2 3".toList).command_scopes.map
        (fun s => s.arguments.map (fun a => (a.start_index, a.end_index)))
      = [[(0, 2), (3, 4)], [(5, 7), (8, 9), (10, 11)]] ∧
    (update_command_of_scope sample_registry
        (serialized_buffer.serialized_buffer sample_registry "go 1;tp 2 3".toList) 0
        "teleport".toList).command_scopes.map (fun s => (s.name, s.start_index, s.end_index))
      = [("go".toList, 0, 10), ("tp".toList, 11, 17)] ∧
    (update_command_of_scope sample_registry
        (update_command_of_scope sample_registry
          (serialized_buffer.serialized_buffer sample_registry "go 1;tp 2 3".toList) 0
          "teleport".toList) 0 "go".toList).command_scopes.map
        (fun s => (s.name, s.start_index, s.end_index))
      = [("go".toList, 0, 10), ("tp".toList, 11, 17)] ∧
    (update_command_of_scope sample_registry
        (update_command_of_scope sample_registry
          (serialized_buffer.serialized_buffer sample_registry "go 1;tp 2 3".toList) 0
          "teleport".toList) 0 "go".toList).command_scopes.map
        (fun s => s.arguments.map (fun a => (a.start_index, a.end_index)))
      = [[(6, 8), (9, 10)], [(11, 13), (14, 15), (16, 17)]] := by
  refine ⟨by decide, by decide, by decide, by decide, by decide⟩

/-- C23, evaluated on the code: after the command at position 0 of
`go 1;tp 2 3` is renamed to `teleport`, the scope still starts at 0 and its
stored name is still `go`; its command-name token has the text `go` and the
range `[6,8)`: it ends at 0 + 8 but starts at 6, not at 0. -/
theorem renamed_command_token_stale :
    (update_command_of_scope sample_registry
        (serialized_buffer.serialized_buffer sample_registry "go 1;tp 2 3".toList) 0
        "teleport".toList).command_scopes.map
        (fun s => (s.name, s.start_index, s.cmd.map (fun c => c.name)))
      = [("go".toList, 0, some "teleport".toList), ("tp".toList, 11, some "tp".toList)] ∧
    (update_command_of_scope sample_registry
        (serialized_buffer.serialized_buffer sample_registry "go 1;tp 2 3".toList) 0
        "teleport".toList).command_scopes.map
        (fun s => s.arguments.head?.map (fun a => (a.name, a.index, a.start_index, a.end_index)))
      = [some ("go".toList, 0, 6, 8), some ("tp".toList, 0, 11, 13)] ∧
    ("teleport".toList.length : Int) = 8 := by
  refine ⟨by decide, by decide, by decide⟩

/-- C24, evaluated on the code: `a;;b` is left as it is by `clean_buffer`
and `buffer_needs_cleaning` flags it, for its two adjacent semicolons; and
two adjacent semicolons are the only thing that is ever flagged in a
cleaned line. -/
theorem cleaned_line_still_flagged :
    clean_buffer "a;;b".toList = "a;;b".toList ∧
    buffer_needs_cleaning (clean_buffer "a;;b".toList) = true ∧
    (∀ s : List Char, buffer_needs_cleaning (clean_buffer s) = true →
      ∃ i : Nat, (clean_buffer s)[i]? = some ';' ∧ (clean_buffer s)[i + 1]? = some ';') := by
  refine ⟨by decide, by decide, ?_⟩
  intro s h
  obtain ⟨i, a, b, h1, h2, h3⟩ := buffer_needs_cleaning_pair (clean_buffer s) h
  have hadj := chain_adjacent _ (clean_buffer_chain s) i a b h1 h2
  rcases h3 with ⟨ha, hb⟩ | ⟨ha, hb | hb⟩
  · exact absurd ha (hadj hb).1
  · exact ⟨i, by rw [h1, ha], by rw [h2, hb]⟩
  · exact absurd ha (hadj hb).2

end big
